/-
  Verification development for the chatbot framework
  (command-pattern compiler/matcher, argument splitter, shared-syntax
  accumulator, dispatch engine, channel state container, persisted value
  store, chatters registry).

  Strings are modelled as lists of characters; byte indices of the original
  become character indices, which is faithful because every index the code
  computes lies on a character boundary.
-/
import Mathlib

namespace Chatbot

/-- Strings are modelled as lists of characters. -/
abbrev Str := List Char

/-- Convert a Lean string literal to the model representation. -/
def str (s : String) : Str := s.data

/-- Unicode White_Space property, as decided by Rust's `char::is_whitespace`. -/
def isWS (c : Char) : Bool :=
  c.toNat == 0x9 || c.toNat == 0xA || c.toNat == 0xB || c.toNat == 0xC ||
  c.toNat == 0xD || c.toNat == 0x20 || c.toNat == 0x85 || c.toNat == 0xA0 ||
  c.toNat == 0x1680 || (0x2000 ≤ c.toNat && c.toNat ≤ 0x200A) ||
  c.toNat == 0x2028 || c.toNat == 0x2029 || c.toNat == 0x202F ||
  c.toNat == 0x205F || c.toNat == 0x3000

/-- Negation of `isWS`, the predicate for word characters. -/
def notWS (c : Char) : Bool := !(isWS c)

/-- Rust `str::trim`: remove leading and trailing whitespace. -/
def trim (s : Str) : Str :=
  ((s.dropWhile isWS).reverse.dropWhile isWS).reverse

/-- Fuelled worker for `splitW` (structural recursion, so that the kernel
can evaluate it on concrete strings). -/
def splitWGo : Nat → Str → List Str
  | 0, _ => []
  | _, [] => []
  | n + 1, c :: s =>
    if isWS c then splitWGo n s
    else (c :: s).takeWhile notWS :: splitWGo n ((c :: s).dropWhile notWS)

/-- Canonical whitespace splitting (the denotation of Rust
`str::split_whitespace`): the list of maximal non-whitespace runs. -/
def splitW (s : Str) : List Str := splitWGo s.length s

/-- The fuel argument of `splitWGo` is irrelevant once it dominates the
length of the string. -/
theorem splitWGo_fuel :
    ∀ (n m : Nat) (s : Str), s.length ≤ n → s.length ≤ m →
      splitWGo n s = splitWGo m s := by
  intro n
  induction n with
  | zero =>
    intro m s hn _
    have : s = [] := List.eq_nil_of_length_eq_zero (Nat.le_zero.mp hn)
    subst this
    cases m <;> rfl
  | succ n ih =>
    intro m s hn hm
    cases s with
    | nil => cases m <;> rfl
    | cons c s' =>
      cases m with
      | zero => exact absurd hm (by simp)
      | succ m' =>
        simp only [splitWGo]
        by_cases hc : isWS c
        · rw [if_pos hc, if_pos hc]
          exact ih m' s' (by simpa using hn) (by simpa using hm)
        · rw [if_neg hc, if_neg hc]
          have hdrop : ((c :: s').dropWhile notWS).length ≤ s'.length := by
            have h1 : (c :: s').dropWhile notWS = s'.dropWhile notWS := by
              simp [List.dropWhile_cons, notWS, hc]
            rw [h1]
            exact (List.dropWhile_sublist _).length_le
          rw [ih m' _ (le_trans hdrop (by simpa using hn))
            (le_trans hdrop (by simpa using hm))]

/-- Recursion equation of `splitW`: the empty string has no words. -/
theorem splitW_nil : splitW [] = [] := rfl

/-- Recursion equation of `splitW`: leading whitespace is skipped. -/
theorem splitW_cons_ws {c : Char} (s : Str) (hc : isWS c = true) :
    splitW (c :: s) = splitW s := by
  simp only [splitW, List.length_cons, splitWGo, hc, if_pos]

/-- Recursion equation of `splitW`: a non-whitespace head starts a word. -/
theorem splitW_cons_word {c : Char} (s : Str) (hc : ¬ isWS c = true) :
    splitW (c :: s) =
      (c :: s).takeWhile notWS :: splitW ((c :: s).dropWhile notWS) := by
  simp only [splitW, List.length_cons, splitWGo]
  rw [if_neg hc]
  congr 1
  have hdrop : ((c :: s).dropWhile notWS).length ≤ s.length := by
    have h1 : (c :: s).dropWhile notWS = s.dropWhile notWS := by
      simp [List.dropWhile_cons, notWS, hc]
    rw [h1]
    exact (List.dropWhile_sublist _).length_le
  exact splitWGo_fuel s.length _ _ (le_trans hdrop (by simp)) (le_refl _)

/-- Model of `CommandArguments` from `chatbot-lib/src/command/split.rs`:
a borrowed string together with the current unconsumed `range`. -/
structure CommandArguments where
  str : Str
  start : Nat
  stop : Nat
deriving Repr, DecidableEq

namespace CommandArguments

/-- Model of `From<&str> for CommandArguments`: the whole string is
unconsumed. -/
def ofStr (s : Str) : CommandArguments := ⟨s, 0, s.length⟩

/-- The text of the unconsumed range `str[range]`. -/
def slice (ca : CommandArguments) : Str :=
  (ca.str.drop ca.start).take (ca.stop - ca.start)

/-- Model of the free function `none_if_empty`. -/
def noneIfEmpty (s : Str) : Option Str :=
  if s.isEmpty then none else some s

/-- Model of the free function `find_index`: index of the first character
satisfying `f`, or the length when there is none (Lean's `List.findIdx`
already has exactly this behaviour). -/
def findIndex (s : Str) (f : Char → Bool) : Nat := s.findIdx f

/-- Model of the free function `rfind_index_plus_one`: the index of the first
character of the maximal trailing run of characters not satisfying `f`
(equivalently, one past the last character satisfying `f`), or the length
when the last character satisfies `f`, or `0` when no character satisfies
`f`. The Rust body (reversed `char_indices`, `take_while`, `last`) computes
`s.length` minus the length of that trailing run, which is the same value in
all cases. -/
def rfindIndexPlusOne (s : Str) (f : Char → Bool) : Nat :=
  s.length - (s.reverse.takeWhile (fun c => !(f c))).length

/-- Model of `CommandArguments::as_str`. -/
def asStr (ca : CommandArguments) : Str := trim ca.slice

/-- Model of `Iterator::next for CommandArguments`: find the first
non-whitespace character in the range, then the end of that word; consume up
to the word end and return the word. When the range is all whitespace the
range is left unchanged and `none` is returned. -/
def next (ca : CommandArguments) : CommandArguments × Option Str :=
  let sl := ca.slice
  let i := sl.findIdx notWS
  if i < sl.length then
    let st := ca.start + i
    let sub := (ca.str.drop st).take (ca.stop - st)
    let index := st + findIndex sub isWS
    ({ ca with start := index }, noneIfEmpty ((ca.str.drop st).take (index - st)))
  else
    (ca, none)

/-- Model of `DoubleEndedIterator::next_back for CommandArguments`. The
source computes `rfind_index_plus_one` on the sub-slice `str[start..end]`
and then uses the resulting slice-relative index as an absolute index into
`str` (both for the new range end and for the returned word); this model
reproduces that behaviour exactly. -/
def nextBack (ca : CommandArguments) : CommandArguments × Option Str :=
  let sl := ca.slice
  let j := sl.reverse.findIdx notWS
  if j < sl.length then
    let e := ca.start + (sl.length - 1 - j) + 1
    let sub := (ca.str.drop ca.start).take (e - ca.start)
    let index := rfindIndexPlusOne sub isWS
    ({ ca with stop := index }, noneIfEmpty ((ca.str.drop index).take (e - index)))
  else
    (ca, none)

/-- Model of `CommandArguments::next_rest`: return the trimmed remaining
text and consume everything (the range becomes `0..0`). -/
def nextRest (ca : CommandArguments) : CommandArguments × Option Str :=
  let result := ca.asStr
  ({ ca with start := 0, stop := 0 }, noneIfEmpty result)

/-- Model of `CommandArguments::consumed_begin`: a fresh iterator over
`str[..range.start]`. -/
def consumedBegin (ca : CommandArguments) : CommandArguments :=
  ofStr (ca.str.take ca.start)

/-- Model of `CommandArguments::consumed_end`: a fresh iterator over
`str[range.end..]`. -/
def consumedEnd (ca : CommandArguments) : CommandArguments :=
  ofStr (ca.str.drop ca.stop)

end CommandArguments

/-! ## Pattern compiler (`chatbot-macro/src/pattern.rs`, `token.rs`, `rev_on.rs`) -/

/-- Model of `CommandPattern` from `chatbot-macro/src/pattern.rs`. -/
inductive CommandPattern where
  | command (s : Str)
  | subcommand (s : Str)
  | argument (name : Str) (takeAll : Bool) (optional : Bool)
  | takeAll
deriving Repr, DecidableEq

/-- Rust `str::strip_prefix(char)`. -/
def stripPrefixChar (c : Char) (s : Str) : Option Str :=
  match s with
  | a :: rest => if a = c then some rest else none
  | [] => none

/-- Rust `str::strip_suffix(char)`. -/
def stripSuffixChar (c : Char) (s : Str) : Option Str :=
  if s.getLast? = some c then some (s.take (s.length - 1)) else none

/-- Rust `str::strip_suffix(&str)`. -/
def stripSuffixStr (suf s : Str) : Option Str :=
  if suf.isSuffixOf s then some (s.take (s.length - suf.length)) else none

/-- Model of `From<&str> for CommandPattern`: classify one template word. -/
def CommandPattern.ofStr (v : Str) : CommandPattern :=
  if v.head? = some ('!') then .command v
  else if v = str (r"..") then .takeAll
  else
    match (stripPrefixChar '<' v).bind (stripSuffixChar '>') with
    | some inner =>
      match stripSuffixStr (str (r"..")) inner with
      | some name => .argument name true false
      | none => .argument inner false false
    | none =>
      match (stripPrefixChar '[' v).bind (stripSuffixChar ']') with
      | some inner =>
        match stripSuffixStr (str (r"..")) inner with
        | some name => .argument name true true
        | none => .argument inner false true
      | none => .subcommand v

/-- Model of `CommandPattern::is_taking_all`. -/
def CommandPattern.isTakingAll : CommandPattern → Bool
  | .argument _ true _ => true
  | .takeAll => true
  | _ => false

/-- Model of `CommandPattern::is_optional`. -/
def CommandPattern.isOptional : CommandPattern → Bool
  | .argument _ _ true => true
  | .takeAll => true
  | _ => false

/-- The `chatbot-macro/src/lib.rs` attribute collects the template's words
into an `IndexMap` keyed by the pattern itself, so later words that are
structurally equal to an earlier one are collapsed onto the first
occurrence. -/
def dedupKeepFirst {α : Type} [DecidableEq α] (l : List α) : List α :=
  go [] l
where
  /-- Worker with the set of already-kept elements. -/
  go (seen : List α) : List α → List α
    | [] => []
    | a :: as => if a ∈ seen then go seen as else a :: go (a :: seen) as

/-- Denotation of fully iterating `RevOn` from `chatbot-macro/src/rev_on.rs`:
walk the list forward, pairing items with `false`, until the first item on
which `f` holds; then yield the remaining items from the back (paired with
`true`) and finally the stored item itself (paired with `true`). -/
def revOn {α : Type} (f : α → Bool) : List α → List (α × Bool)
  | [] => []
  | x :: xs =>
    if f x then (xs.reverse.map (fun a => (a, true))) ++ [(x, true)]
    else (x, false) :: revOn f xs

/-- The two compile-time diagnostics of `CommandPatternScanner::scan`. -/
inductive ScanErrorKind where
  | hasToBeOptional
  | onlyOneTakeAll
deriving Repr, DecidableEq

/-- State of `CommandPatternScanner` from `chatbot-macro/src/token.rs`. -/
structure CommandPatternScanner where
  optional : Bool
  takeAll : Bool
deriving Repr, DecidableEq

/-- Model of `CommandPatternScanner::new`. -/
def CommandPatternScanner.new : CommandPatternScanner := ⟨false, false⟩

/-- Model of `CommandPatternScanner::scan` (the error-producing part): an
optional token sets the sticky `optional` flag; a non-optional token after
it is an error; any token at all after the sticky `take_all` flag is set is
an error (overwriting the first diagnostic, as in the source); a take-all
token sets the sticky `take_all` flag. -/
def CommandPatternScanner.scan (st : CommandPatternScanner) (p : CommandPattern) :
    CommandPatternScanner × Option ScanErrorKind :=
  let err0 : Option ScanErrorKind := none
  let (st1, err1) :=
    if p.isOptional then ({ st with optional := true }, err0)
    else if st.optional then (st, some ScanErrorKind.hasToBeOptional)
    else (st, err0)
  let err2 := if st1.takeAll then some ScanErrorKind.onlyOneTakeAll else err1
  let st2 := if p.isTakingAll then { st1 with takeAll := true } else st1
  (st2, err2)

/-- Run the scanner over a token sequence from a given state, collecting
every diagnostic in order. -/
def scanGo (st : CommandPatternScanner) : List CommandPattern → List ScanErrorKind
  | [] => []
  | p :: rest =>
    let r := st.scan p
    r.2.toList ++ scanGo r.1 rest

/-- Run the scanner over a token sequence, collecting every diagnostic. -/
def scanAll (ps : List CommandPattern) : List ScanErrorKind :=
  scanGo CommandPatternScanner.new ps

/-- The template's token list as the `command` attribute builds it:
whitespace-split, classified, deduplicated by the `IndexMap`. -/
def templateTokens (tmpl : Str) : List CommandPattern :=
  dedupKeepFirst ((splitW tmpl).map CommandPattern.ofStr)

/-- The token/direction sequence the macro generates code from: the token
list rearranged by `rev_on(is_taking_all)`, where the `Bool` is the
`Direction` (`true` = `Backwards`). -/
def compiledSequence (tmpl : Str) : List (CommandPattern × Bool) :=
  revOn CommandPattern.isTakingAll (templateTokens tmpl)

/-- Compile-time diagnostics for a template: the scanner is run over the
tokens in `rev_on` order. -/
def compileErrors (tmpl : Str) : List ScanErrorKind :=
  scanAll ((compiledSequence tmpl).map Prod.fst)

/-! ## Pattern matcher (the code the `command` attribute generates, per
`chatbot-macro/src/meta.rs` and `token.rs`, using the helpers of
`chatbot-lib/src/command/mod.rs`) -/

/-- Model of `CommandError` from `chatbot-lib/src/command/error.rs` (error
payloads are dropped, argument names kept). -/
inductive CommandError where
  | commandMismatch
  | subcommandMismatch
  | argumentMissing
  | argumentParsing
  | argumentsLeftOver
  | namedArgumentParsing (name : Str)
  | requestError
deriving Repr, DecidableEq

/-- Model of `CommandError::is_argument_error`. -/
def CommandError.isArgumentError : CommandError → Bool
  | .argumentMissing | .argumentParsing | .argumentsLeftOver
  | .namedArgumentParsing _ => true
  | _ => false

/-- Model of `CommandError::is_subcommand_mismatch`. -/
def CommandError.isSubcommandMismatch : CommandError → Bool
  | .subcommandMismatch => true
  | _ => false

/-- A typed argument's `FromArgument` parse, abstracted to its success or
failure on a word (indexed by the argument name). -/
abbrev ParseOk := Str → Str → Bool

/-- The matcher state threaded through the generated code: the argument
iterator plus the argument bindings made so far (an absent optional binds
`none`). -/
structure MatchState where
  iter : CommandArguments
  binds : List (Str × Option Str)
deriving Repr, DecidableEq

/-- Model of the free function `next` in `chatbot-macro/src/token.rs`:
take-all tokens use `next_rest`, otherwise the direction chooses `next` or
`next_back`. -/
def nextByDirection (args : CommandArguments) (backwards takeAll : Bool) :
    CommandArguments × Option Str :=
  if takeAll then args.nextRest
  else if backwards then args.nextBack
  else args.next

/-- One token of generated matching code
(`CommandPatternToken::into_token_stream`): literals must equal the consumed
word or fail with the positional mismatch error; arguments consume a word
(or the rest, for take-all) and parse it, with optional arguments binding
`none` instead of failing on missing input; a bare `..` consumes the rest
and discards it. -/
def runToken (pok : ParseOk) (st : MatchState) :
    CommandPattern × Bool → Except CommandError MatchState
  | (.command c, bw) =>
    match nextByDirection st.iter bw false with
    | (it, some w) =>
      if w = c then .ok { st with iter := it }
      else .error .commandMismatch
    | (_, none) => .error .commandMismatch
  | (.subcommand c, bw) =>
    match nextByDirection st.iter bw false with
    | (it, some w) =>
      if w = c then .ok { st with iter := it }
      else .error .subcommandMismatch
    | (_, none) => .error .subcommandMismatch
  | (.argument name ta opt, bw) =>
    match nextByDirection st.iter bw ta, opt with
    | (it, some w), _ =>
      if pok name w then .ok { iter := it, binds := st.binds ++ [(name, some w)] }
      else .error (.namedArgumentParsing name)
    | (it, none), true => .ok { iter := it, binds := st.binds ++ [(name, none)] }
    | (_, none), false => .error .argumentMissing
  | (.takeAll, _) => .ok { st with iter := st.iter.nextRest.1 }

/-- Initial matcher state over a raw command text. -/
def initialState (input : Str) : MatchState :=
  ⟨CommandArguments.ofStr input, []⟩

/-- Run the generated code for every token in sequence. -/
def runTokens (pok : ParseOk) (toks : List (CommandPattern × Bool)) (st : MatchState) :
    Except CommandError MatchState :=
  toks.foldlM (runToken pok) st

/-- The whole generated matcher body: run all tokens, then the trailing
empty check `to_empty_check` (a final `next_rest`; any remaining word is
`ArgumentsLeftOver`). -/
def matchTokens (pok : ParseOk) (toks : List (CommandPattern × Bool)) (input : Str) :
    Except CommandError (List (Str × Option Str)) :=
  match runTokens pok toks (initialState input) with
  | .error e => .error e
  | .ok st =>
    if (st.iter.nextRest).2.isSome then .error .argumentsLeftOver
    else .ok st.binds

/-- Compile a template and match an input against it. -/
def matchTemplate (pok : ParseOk) (tmpl input : Str) :
    Except CommandError (List (Str × Option Str)) :=
  matchTokens pok (compiledSequence tmpl) input

/-! ## Shared-syntax accumulator (`chatbot-lib/src/command/subcommand.rs`) -/

/-- A successful `next` strictly shrinks the unconsumed range (and touches
nothing else); this justifies termination of loops driven by `next`. -/
theorem CommandArguments.next_some_measure {ca ca' : CommandArguments} {w : Str}
    (h : ca.next = (ca', some w)) :
    ca'.str = ca.str ∧ ca'.stop = ca.stop ∧ ca.start < ca'.start ∧
      ca.stop - ca'.start < ca.stop - ca.start := by
  have hsl : ca.slice.length ≤ ca.stop - ca.start := by
    simp only [slice]
    exact List.length_take_le _ _
  unfold next at h
  simp only at h
  split at h
  · rename_i hlt
    set i := ca.slice.findIdx notWS with hi
    set st := ca.start + i with hst
    set k := findIndex ((ca.str.drop st).take (ca.stop - st)) isWS with hk
    rw [Prod.mk.injEq] at h
    obtain ⟨h1, h2⟩ := h
    simp only [noneIfEmpty] at h2
    split at h2
    · simp at h2
    · rename_i hne
      rw [List.isEmpty_iff] at hne
      have hpos : 0 < ((ca.str.drop st).take (st + k - st)).length :=
        List.length_pos.mpr hne
      rw [List.length_take] at hpos
      subst h1
      refine ⟨rfl, rfl, ?_, ?_⟩ <;> (dsimp only; omega)
  · simp at h

/-- Model of `FindSharedSyntax` from `chatbot-lib/src/command/subcommand.rs`
(the Rust field `prefix` is called `pref` here). -/
structure FindSharedSyntax where
  pref : CommandArguments
  choice : List Str
deriving Repr, DecidableEq

/-- Model of `FindSharedSyntax::new`. -/
def FindSharedSyntax.new (command : Str) : FindSharedSyntax :=
  ⟨CommandArguments.ofStr command, []⟩

/-- The loop of `FindSharedSyntax::append`: compare the cloned `prefix`
iterator against the new template word by word. On exhaustion of the
stored one the stored iterator stays as it was (`orig`) and the diverging
word of the new template, if any, is pushed onto `choice`; on a genuine
divergence the stored iterator is rebuilt as `consumed_begin` with one
`next_back` applied (dropping the diverging word), and `choice` is reset to
the one or two diverging words. -/
def FindSharedSyntax.appendGo (choice : List Str) (orig : CommandArguments)
    (pr cm : CommandArguments) : CommandArguments × List Str :=
  match h : pr.next with
  | (_, none) => (orig, choice ++ (cm.next).2.toList)
  | (p', some w) =>
    let r := cm.next
    if r.2 = some w then appendGo choice orig p' r.1
    else ((p'.consumedBegin.nextBack).1, w :: r.2.toList)
termination_by pr.stop - pr.start
decreasing_by
  have := CommandArguments.next_some_measure h
  omega

/-- Model of `FindSharedSyntax::append`. -/
def FindSharedSyntax.append (fss : FindSharedSyntax) (command : Str) :
    FindSharedSyntax :=
  let r := FindSharedSyntax.appendGo fss.choice fss.pref fss.pref
    (CommandArguments.ofStr command)
  ⟨r.1, r.2⟩

/-- Model of `ToString for FindSharedSyntax`: the shared text, followed by
the alternatives joined with a bar when there are any. -/
def FindSharedSyntax.toText (fss : FindSharedSyntax) : Str :=
  if fss.choice.isEmpty then fss.pref.asStr
  else fss.pref.asStr ++ str (r" ") ++ List.intercalate (str (r"|")) fss.choice

/-! ## Users (`chatbot-lib/src/user/mod.rs`, `user_argument.rs`) -/

/-- Model of `User` (and of the field-identical `OwnedUser`); `UserId` is
a string in the source. -/
structure User where
  username : Str
  display_name : Option Str
  user_id : Option Str
deriving Repr, DecidableEq

/-- Model of `PartialEq for User` (and the identical `impl` for
`OwnedUser`): ids decide when both are present, usernames otherwise. -/
def User.eq (a b : User) : Bool :=
  match a.user_id, b.user_id with
  | some x, some y => x == y
  | _, _ => a.username == b.username

/-- Model of `UserArgument::from(&User)` followed by `Display`: the display
name when present, else the username, prefixed with an at sign. -/
def userMention (u : User) : Str :=
  '@' :: (match u.display_name with | some d => d | none => u.username)

/-- The self-message gate of `MessageHandler::handle` in
`chatbot-lib/src/chat_bot.rs`: a request is dropped before dispatch iff
`ignore_self` is set and the sender compares equal to the bot. -/
def ignoresOwnMessage (ignoreSelf : Bool) (sender bot : User) : Bool :=
  ignoreSelf && User.eq sender bot

/-! ## Dispatch engine (the `commands` macro in `chatbot-macro/src/lib.rs`) -/

/-- One registered command handler, abstracted to its observable behaviour
on the current request: the outcome of its generated matcher+body, its
`show_syntax` flag and its pattern literal. -/
structure Handler (R : Type) where
  outcome : Except CommandError R
  showSyntax : Bool
  pat : Str

/-- What dispatch produces: a handler's own response, or a synthesized
syntax-suggestion message. -/
inductive Reply (R : Type) where
  | handlerResponse (r : R)
  | syntaxReply (text : Str)
deriving DecidableEq

/-- The loop body generated by the `commands` macro: run handlers in
order; a success returns that handler's response at once; an argument error
of a `show_syntax` handler returns an immediate syntax reply for that
handler; a subcommand mismatch of a `show_syntax` handler is folded into
the shared-syntax accumulator; everything else is skipped. After the loop a
non-empty accumulator yields a synthesized suggestion reply, otherwise no
reply. -/
def processGo {R : Type} (sender : User) :
    List (Handler R) → Option FindSharedSyntax → Option (Reply R)
  | [], none => none
  | [], some fss =>
    some (.syntaxReply (userMention sender ++ str (r" ") ++ fss.toText))
  | h :: rest, acc =>
    match h.outcome with
    | .ok r => some (.handlerResponse r)
    | .error e =>
      if h.showSyntax && e.isArgumentError then
        some (.syntaxReply (userMention sender ++ str (r" ") ++ h.pat))
      else if h.showSyntax && e.isSubcommandMismatch then
        processGo sender rest
          (some (match acc with
            | some fss => fss.append h.pat
            | none => FindSharedSyntax.new h.pat))
      else
        processGo sender rest acc

/-- Model of `CommandProcessor::process` as generated by the `commands`
macro. -/
def process {R : Type} (sender : User) (hs : List (Handler R)) : Option (Reply R) :=
  processGo sender hs none

/-! ## Chatters registry (`chatbot-lib/src/state/chatters.rs`) -/

/-- A `HashMap<String, usize>` modelled as an association list with unique
keys. -/
abbrev Index := List (Str × Nat)

/-- Lookup in the association-list model of a hash map. -/
def alGet (m : Index) (k : Str) : Option Nat :=
  match m.find? (fun p => p.1 = k) with
  | some p => some p.2
  | none => none

/-- Insertion in the association-list model of a hash map: replace the
value of the existing entry for the key, else add the entry. -/
def alInsert (m : Index) (k : Str) (v : Nat) : Index :=
  match m with
  | [] => [(k, v)]
  | p :: rest => if p.1 = k then (k, v) :: rest else p :: alInsert rest k v

/-- Removal in the association-list model of a hash map. -/
def alRemove (m : Index) (k : Str) : Index :=
  m.filter (fun p => p.1 ≠ k)

/-- Model of `OwnedUser::update_username`: replace on change, returning the
previous username. -/
def User.updateUsername (u : User) (username : Str) : User × Option Str :=
  if u.username ≠ username then ({ u with username := username }, some u.username)
  else (u, none)

/-- Model of `OwnedUser::update_display_name`. -/
def User.updateDisplayName (u : User) (d : Option Str) : User × Option (Option Str) :=
  if u.display_name ≠ d then ({ u with display_name := d }, some u.display_name)
  else (u, none)

/-- Model of `OwnedUser::set_user_id`: only fills in a missing id, returning
the id it stored. -/
def User.setUserId (u : User) (id : Option Str) : User × Option Str :=
  if u.user_id = none ∧ id.isSome then ({ u with user_id := id }, id)
  else (u, none)

/-- Model of `AllChatters`: the three lookup indices plus the dense user
list. -/
structure AllChatters where
  usernames : Index
  display_names : Index
  user_ids : Index
  users : List User
deriving Repr, DecidableEq

/-- Model of `AllChatters::index`: resolve by numeric id when the observed
user carries one, else by username. -/
def AllChatters.index (st : AllChatters) (chatter : User) : Option Nat :=
  match chatter.user_id with
  | some uid => alGet st.user_ids uid
  | none => alGet st.usernames chatter.username

/-- Model of `AllChatters::insert`. -/
def AllChatters.insert (st : AllChatters) (chatter : User) : AllChatters × Nat :=
  let index := st.users.length
  let st1 := { st with users := st.users ++ [chatter] }
  let st2 := { st1 with usernames := alInsert st1.usernames chatter.username index }
  let st3 := match chatter.display_name with
    | some d => { st2 with display_names := alInsert st2.display_names d index }
    | none => st2
  let st4 := match chatter.user_id with
    | some uid => { st3 with user_ids := alInsert st3.user_ids uid index }
    | none => st3
  (st4, index)

/-- The (never-observed) default record used to make `List.getD` total. -/
def defU : User := ⟨[], none, none⟩

/-- The update branch of `AllChatters::update_or_insert`, for a resolved
index: update the record in place and re-key each index whose key changed
(old key removed, new key inserted). -/
def AllChatters.updateKnown (st : AllChatters) (chatter : User) (index : Nat) :
    AllChatters × Nat :=
    let u0 := st.users.getD index defU
    let r1 := u0.updateUsername chatter.username
    let r2 := r1.1.updateDisplayName chatter.display_name
    let r3 := r2.1.setUserId chatter.user_id
    let st1 := { st with users := st.users.set index r3.1 }
    let st2 := match r1.2 with
      | some prev =>
        { st1 with usernames :=
            alInsert (alRemove st1.usernames prev) chatter.username index }
      | none => st1
    let st3 := match r2.2 with
      | some prevOpt =>
        let dns := match prevOpt with
          | some prev => alRemove st2.display_names prev
          | none => st2.display_names
        let dns2 := match chatter.display_name with
          | some d => alInsert dns d index
          | none => dns
        { st2 with display_names := dns2 }
      | none => st2
    let st4 := match r3.2 with
      | some uid => { st3 with user_ids := alInsert st3.user_ids uid index }
      | none => st3
    (st4, index)

/-- Model of `AllChatters::update_or_insert`: resolve the identity; on a
hit, update the record in place and re-key each index whose key changed;
on a miss, insert a fresh record. -/
def AllChatters.updateOrInsert (st : AllChatters) (chatter : User) :
    AllChatters × Nat :=
  match st.index chatter with
  | some index => st.updateKnown chatter index
  | none => st.insert chatter

/-! ## Persisted value store (`chatbot-lib/src/state/persisted_state.rs`) -/

/-- Content of one on-disk file slot: missing, a complete serialization of
a value, or a truncated (partially written) serialization of a value. -/
inductive FileState (V : Type) where
  | absent
  | full (v : V)
  | truncated (v : V) (k : Nat)
deriving Repr, DecidableEq

/-- The two paths `store_on_disk` touches: the canonical `<name>.ron` file
and the temporary `<name>.ron.temp` file. -/
structure Disk (V : Type) where
  canonical : FileState V
  temp : FileState V
deriving Repr, DecidableEq

/-- Where a `store_on_disk` attempt stops: it can fail opening the temp
file, mid-serialization (leaving `k` of the bytes), at `sync_all`, or at
the final rename. -/
inductive WriteOutcome where
  | ok
  | failOpen
  | failWrite (k : Nat)
  | failSync (k : Nat)
  | failRename
deriving Repr, DecidableEq

/-- Model of `store_on_disk`: the serialized value is written to the
temporary path and then renamed over the canonical path; the canonical file
changes only in the successful rename, and then to the complete new
serialization. The `Bool` is write success. -/
def storeOnDisk {V : Type} (d : Disk V) (v : V) : WriteOutcome → Disk V × Bool
  | .ok => ({ canonical := .full v, temp := .absent }, true)
  | .failOpen => (d, false)
  | .failWrite k => ({ d with temp := .truncated v k }, false)
  | .failSync k => ({ d with temp := .truncated v k }, false)
  | .failRename => ({ d with temp := .full v }, false)

/-- Model of `read_from_disk`: a missing canonical file is `Ok(None)`, a
complete one deserializes, a truncated one is a read error. -/
def readFromDisk {V : Type} (d : Disk V) : Except Unit (Option V) :=
  match d.canonical with
  | .absent => .ok none
  | .full v => .ok (some v)
  | .truncated _ _ => .error ()

/-- Model of one `(channel, type)` slot of the persisted store: the
in-memory `ArcSwapOption` plus its disk state (the semaphore is implicit:
`maybe_update` runs under the permit from start to finish). -/
structure PersistedChannelState (V : Type) where
  mem : Option V
  disk : Disk V
deriving Repr, DecidableEq

/-- Result of one `maybe_update` call: the state afterwards, whether the
type's `handle_write_error` hook ran, and the returned
`(old value, optional new value)` pair. -/
structure UpdateResult (V : Type) where
  state : PersistedChannelState V
  hookCalled : Bool
  oldValue : V
  newValue : Option V
deriving Repr, DecidableEq

/-- The load phase shared by `read` and `maybe_update`: an in-memory value
is used as is; otherwise the disk is read, with the `init` fallback for a
missing file (`initv`) and the `handle_read_error` fallback for a read
error (`hre`), and the loaded value is published in memory. -/
def loadValue {V : Type} (st : PersistedChannelState V) (initv hre : V) :
    V × PersistedChannelState V :=
  match st.mem with
  | some v => (v, st)
  | none =>
    let v := match readFromDisk st.disk with
      | .ok (some v) => v
      | .ok none => initv
      | .error _ => hre
    (v, { st with mem := some v })

/-- Model of `PersistedChannelState::maybe_update` under the permit:
load (from memory, else from disk with `init`/`handle_read_error`
fallbacks, publishing the loaded value), apply `f`; when `f` yields a new
value, write it to disk via `store_on_disk` with outcome `w`, publish it
in memory unconditionally, and run the write-error hook exactly when the
write failed. `initv` is `T::init(channel)` and `hre` is
`T::handle_read_error(channel, e)`. -/
def maybeUpdate {V : Type} (st : PersistedChannelState V) (initv hre : V)
    (f : V → Option V) (w : WriteOutcome) : UpdateResult V :=
  let loaded := loadValue st initv hre
  let value := loaded.1
  let st1 := loaded.2
  match f value with
  | none => ⟨st1, false, value, none⟩
  | some nv =>
    let r := storeOnDisk st1.disk nv w
    ⟨{ mem := some nv, disk := r.1 }, !r.2, value, some nv⟩

/-! ## Channel state container (`chatbot-lib/src/state/channel_state.rs`) -/

/-- Program counter of one caller running `ChannelContainer::get_arc` for
one fixed unseen channel: before the shared-lock lookup, after a miss
(waiting for the exclusive lock), or finished. -/
inductive CallerPc where
  | start
  | missed
  | done
deriving Repr, DecidableEq

/-- Shared state of the container for the one channel under consideration:
the map slot and how many times the per-channel initializer (the container
template) has run. -/
structure ContainerState where
  slot : Option Nat
  inits : Nat
  pc1 : CallerPc
  pc2 : CallerPc
deriving Repr, DecidableEq

/-- The atomic sections of `get_arc`, for two concurrent callers. The read
section is the shared-lock lookup; the write section is everything done
under the exclusive lock. -/
inductive ContainerStep where
  | readCheck1
  | readCheck2
  | writeInsert1
  | writeInsert2
deriving Repr, DecidableEq

/-- The shared-lock section of `get_arc`: return the slot when present,
otherwise proceed to the exclusive section. -/
def readCheck (slot : Option Nat) (pc : CallerPc) : Option CallerPc :=
  match pc with
  | .start => some (if slot.isSome then .done else .missed)
  | _ => none

/-- One atomic section of `get_arc` by one caller; `none` means the step is
not enabled. The exclusive-lock section mirrors the source: it runs the
template and inserts, without looking the channel up again first. -/
def containerStep (s : ContainerState) : ContainerStep → Option ContainerState
  | .readCheck1 => (readCheck s.slot s.pc1).map (fun pc => { s with pc1 := pc })
  | .readCheck2 => (readCheck s.slot s.pc2).map (fun pc => { s with pc2 := pc })
  | .writeInsert1 =>
    match s.pc1 with
    | .missed => some { s with slot := some s.inits, inits := s.inits + 1, pc1 := .done }
    | _ => none
  | .writeInsert2 =>
    match s.pc2 with
    | .missed => some { s with slot := some s.inits, inits := s.inits + 1, pc2 := .done }
    | _ => none

/-- Both callers about to access the one unseen channel. -/
def containerInit : ContainerState := ⟨none, 0, .start, .start⟩

/-- Run an interleaving of the two callers' atomic sections. -/
def runContainer (steps : List ContainerStep) : Option ContainerState :=
  steps.foldlM containerStep containerInit

/-! ## Further definitions used by the theorems -/

/-- The always-successful argument parser (`FromArgument for &str` and the
other infallible instances). -/
def pokTrue : ParseOk := fun _ _ => true

/-- A handler on which the generated dispatch loop returns immediately:
its matcher+body succeeded, or it failed with an argument error while
having `show_syntax` enabled. -/
def terminalHandler {R : Type} (h : Handler R) : Bool :=
  match h.outcome with
  | .ok _ => true
  | .error e => h.showSyntax && e.isArgumentError

/-- A handler whose failure is folded into the shared-syntax accumulator. -/
def accumulatingHandler {R : Type} (h : Handler R) : Bool :=
  match h.outcome with
  | .ok _ => false
  | .error e => h.showSyntax && e.isSubcommandMismatch

/-- The complete set of states reachable in the two-caller container model
(closure checked in `containerStep_inv`). -/
def reachableContainerStates : List ContainerState :=
  [⟨none, 0, .start, .start⟩,
   ⟨none, 0, .missed, .start⟩, ⟨none, 0, .start, .missed⟩,
   ⟨none, 0, .missed, .missed⟩,
   ⟨some 0, 1, .done, .start⟩, ⟨some 0, 1, .start, .done⟩,
   ⟨some 0, 1, .done, .missed⟩, ⟨some 0, 1, .missed, .done⟩,
   ⟨some 0, 1, .done, .done⟩,
   ⟨some 1, 2, .done, .done⟩]

/-- Invariant of the two-caller container model: the state is one of the
reachable states. -/
def containerInv (s : ContainerState) : Prop :=
  s ∈ reachableContainerStates

/-! ## C10: user identity equality -/

/-- Helper for the C10 witness: three concrete identities sharing a
username, two of them with distinct numeric ids. -/
def aliceWithId1 : User := ⟨str (r"alice"), none, some (str (r"1"))⟩

/-- Helper for the C10 witness: the id-less user named alice. -/
def aliceNoId : User := ⟨str (r"alice"), some (str (r"Alice")), none⟩

/-- Helper for the C10 witness: a different numeric id, same username. -/
def aliceWithId2 : User := ⟨str (r"alice"), none, some (str (r"2"))⟩

/-- C10: equality of two user identities is decided by the numeric user id
when both sides carry one, and otherwise by exact username equality, with
display names never participating; a user with an id and one without an id
but the same username compare equal; the comparison also gates self-message
suppression; and it is not transitive across users with distinct ids
sharing a username. -/
theorem c10_user_equality :
    (∀ a b : User, ∀ x y : Str, a.user_id = some x → b.user_id = some y →
      (User.eq a b = true ↔ x = y)) ∧
    (∀ a b : User, (a.user_id = none ∨ b.user_id = none) →
      (User.eq a b = true ↔ a.username = b.username)) ∧
    (∀ a b : User, ∀ d d' : Option Str,
      User.eq { a with display_name := d } { b with display_name := d' } =
        User.eq a b) ∧
    (∀ n : Str, ∀ i : Str, ∀ d d' : Option Str,
      User.eq ⟨n, d, some i⟩ ⟨n, d', none⟩ = true) ∧
    (∀ ignoreSelf : Bool, ∀ sender bot : User,
      ignoresOwnMessage ignoreSelf sender bot = (ignoreSelf && User.eq sender bot)) ∧
    (User.eq aliceWithId1 aliceNoId = true ∧ User.eq aliceNoId aliceWithId2 = true ∧
      User.eq aliceWithId1 aliceWithId2 = false) := by
  refine ⟨?_, ?_, ?_, ?_, ?_, by decide⟩
  · intro a b x y hx hy
    simp [User.eq, hx, hy]
  · intro a b h
    rcases h with h | h <;> cases ha : a.user_id <;> cases hb : b.user_id <;>
      simp_all [User.eq]
  · intro a b d d'
    cases ha : a.user_id <;> cases hb : b.user_id <;> simp [User.eq, ha, hb]
  · intro n i d d'
    simp [User.eq]
  · intro ignoreSelf sender bot
    rfl

/-- Witness for C10: the hypothesis-bearing conjuncts applied at concrete
identities. -/
theorem c10_user_equality_witness :
    (User.eq aliceWithId1 aliceWithId2 = true ↔ str (r"1") = str (r"2")) ∧
    (User.eq aliceWithId1 aliceNoId = true ↔
      aliceWithId1.username = aliceNoId.username) :=
  ⟨c10_user_equality.1 aliceWithId1 aliceWithId2 (str (r"1")) (str (r"2")) rfl rfl,
   c10_user_equality.2.1 aliceWithId1 aliceNoId (Or.inr rfl)⟩

/-! ## C5: persisted-value update with a failing disk write -/

/-- C5: when the disk write of a `maybe_update` fails, the write-error hook
runs, the in-memory value still becomes the newly computed value, and the
canonical on-disk file is exactly what it was before; moreover for every
outcome the canonical file is either the old file or the complete new
serialization — never a partial write. -/
theorem c5_persisted_write_failure {V : Type} (st : PersistedChannelState V)
    (initv hre nv : V) (f : V → Option V) (w : WriteOutcome)
    (hf : f (loadValue st initv hre).1 = some nv) :
    (w ≠ .ok →
      (maybeUpdate st initv hre f w).hookCalled = true ∧
      (maybeUpdate st initv hre f w).state.disk.canonical = st.disk.canonical) ∧
    (maybeUpdate st initv hre f w).state.mem = some nv ∧
    ((maybeUpdate st initv hre f w).state.disk.canonical = st.disk.canonical ∨
      (maybeUpdate st initv hre f w).state.disk.canonical = .full nv) := by
  have hdisk : (loadValue st initv hre).2.disk = st.disk := by
    unfold loadValue
    cases st.mem <;> rfl
  cases w <;>
    simp [maybeUpdate, hf, storeOnDisk, hdisk]

/-- Witness for C5: a concrete failing rename after an increment. -/
theorem c5_persisted_write_failure_witness :
    (fun v => some (v + 1)) (loadValue (V := Nat) ⟨some 5, ⟨.full 5, .absent⟩⟩ 0 0).1 =
      some 6 ∧
    (WriteOutcome.failRename ≠ .ok →
      (maybeUpdate (V := Nat) ⟨some 5, ⟨.full 5, .absent⟩⟩ 0 0
        (fun v => some (v + 1)) .failRename).hookCalled = true ∧
      (maybeUpdate (V := Nat) ⟨some 5, ⟨.full 5, .absent⟩⟩ 0 0
        (fun v => some (v + 1)) .failRename).state.disk.canonical = .full 5) ∧
    (maybeUpdate (V := Nat) ⟨some 5, ⟨.full 5, .absent⟩⟩ 0 0
      (fun v => some (v + 1)) .failRename).state.mem = some 6 :=
  ⟨rfl,
   fun hw => (c5_persisted_write_failure ⟨some 5, ⟨.full 5, .absent⟩⟩ 0 0 6
      (fun v => some (v + 1)) .failRename rfl).1 hw,
   (c5_persisted_write_failure ⟨some 5, ⟨.full 5, .absent⟩⟩ 0 0 6
      (fun v => some (v + 1)) .failRename rfl).2.1⟩

/-! ## C4: channel container first-access concurrency -/

/-- One step preserves the container invariant: the reachable-state set is
closed under every enabled step. -/
theorem containerStep_inv {s s' : ContainerState} {stp : ContainerStep}
    (hinv : containerInv s) (h : containerStep s stp = some s') :
    containerInv s' := by
  unfold containerInv reachableContainerStates at hinv ⊢
  fin_cases hinv <;> cases stp <;>
    simp_all [containerStep, readCheck]

/-- The invariant holds along every execution. -/
theorem runContainer_inv_aux :
    ∀ (steps : List ContainerStep) (s0 s : ContainerState), containerInv s0 →
      steps.foldlM containerStep s0 = some s → containerInv s := by
  intro steps
  induction steps with
  | nil =>
    intro s0 s h0 h
    simp only [List.foldlM] at h
    cases h
    exact h0
  | cons a as ih =>
    intro s0 s h0 h
    simp only [List.foldlM] at h
    cases hstep : containerStep s0 a with
    | none => simp [hstep] at h
    | some s1 =>
      simp only [hstep, Option.some_bind] at h
      exact ih s1 s (containerStep_inv h0 hstep) h

/-- C4 (counterexample): the interleaving where both callers miss under the
shared lock before either takes the exclusive lock runs the per-channel
initializer twice — not exactly once as claimed — because the write section
of `get_arc` inserts without re-checking the map. -/
theorem c4_counterexample :
    runContainer
      [.readCheck1, .readCheck2, .writeInsert1, .writeInsert2] =
      some ⟨some 1, 2, .done, .done⟩ ∧ (2 : Nat) ≠ 1 := by
  constructor
  · rfl
  · decide

/-- C4 (amended): without a re-check under the exclusive lock, an
interleaved first access by two callers runs the initializer at least once
and at most once per caller (so up to twice), and always leaves the channel
present in the map. -/
theorem c4_container_init_bounds (steps : List ContainerStep)
    (s : ContainerState) (hrun : runContainer steps = some s)
    (h1 : s.pc1 = .done) (h2 : s.pc2 = .done) :
    1 ≤ s.inits ∧ s.inits ≤ 2 ∧ s.slot.isSome = true := by
  have hinv := runContainer_inv_aux steps containerInit s
    (by unfold containerInv reachableContainerStates; decide) hrun
  unfold containerInv reachableContainerStates at hinv
  fin_cases hinv <;> simp_all

/-- Witness for C4 (amended): a serialized execution — the second caller
reads after the first caller's insert — satisfies the bounds with a single
initializer run. -/
theorem c4_container_init_bounds_witness :
    runContainer [.readCheck1, .writeInsert1, .readCheck2] =
      some ⟨some 0, 1, .done, .done⟩ ∧
    (1 ≤ (1 : Nat) ∧ (1 : Nat) ≤ 2 ∧ (Option.isSome (some 0) = true)) :=
  ⟨rfl, c4_container_init_bounds [.readCheck1, .writeInsert1, .readCheck2]
    ⟨some 0, 1, .done, .done⟩ rfl rfl rfl⟩

/-! ## C3: matching around a take-all token -/

/-- C3 (evaluation of the code): the spec's end-to-end example — a take-all
in the final position — binds exactly as claimed; but with a token after
the take-all, `"!a <rest..> <tail>"` against `"!a b c d"` binds
`tail="c d"` and `rest="b"` instead of the claimed `tail="d"`,
`rest="b c"`: `next_back` resolves the slice-relative index returned by
`rfind_index_plus_one` as an absolute one once forward tokens have moved
`range.start`, so the token after the take-all does not anchor to the last
word and the take-all does not receive the whole middle span. -/
theorem c3_take_all_matching_evaluation :
    matchTemplate pokTrue (str (r"!song add <command> <url> <cooldown..>"))
        (str (r"!song add !walk https://example.com/ 20m")) =
      .ok [(str (r"command"), some (str (r"!walk"))),
           (str (r"url"), some (str (r"https://example.com/"))),
           (str (r"cooldown"), some (str (r"20m")))] ∧
    matchTemplate pokTrue (str (r"!a <rest..> <tail>")) (str (r"!a b c d")) =
      .ok [(str (r"tail"), some (str (r"c d"))),
           (str (r"rest"), some (str (r"b")))] ∧
    (str (r"c d")) ≠ (str (r"d")) ∧ (str (r"b")) ≠ (str (r"b c")) := by
  refine ⟨rfl, rfl, by decide, by decide⟩

/-! ## C2: placement of take-all tokens at compile time -/

/-- With the sticky `take_all` flag set, scanning any further token
produces a diagnostic. -/
theorem scan_some_of_takeAll {st : CommandPatternScanner} (h : st.takeAll = true)
    (p : CommandPattern) : ((st.scan p).2).isSome = true := by
  unfold CommandPatternScanner.scan
  by_cases h1 : p.isOptional = true <;> by_cases h2 : st.optional = true <;>
    simp [h1, h2, h]

/-- Scanning a token sets the sticky `take_all` flag iff the token takes
all or the flag was already set. -/
theorem scan_fst_takeAll (st : CommandPatternScanner) (p : CommandPattern) :
    ((st.scan p).1).takeAll = (st.takeAll || p.isTakingAll) := by
  unfold CommandPatternScanner.scan
  by_cases h1 : p.isOptional = true <;> by_cases h2 : st.optional = true <;>
    by_cases h3 : p.isTakingAll = true <;> simp [h1, h2, h3]

/-- From a state with the sticky `take_all` flag, scanning a non-empty
token sequence reports at least one error. -/
theorem scanGo_ne_nil_of_takeAll {st : CommandPatternScanner}
    (h : st.takeAll = true) (p : CommandPattern) (ps : List CommandPattern) :
    scanGo st (p :: ps) ≠ [] := by
  simp only [scanGo]
  intro hcon
  have h1 := (List.append_eq_nil.mp hcon).1
  have h2 := scan_some_of_takeAll h p
  cases hsc : (st.scan p).2 with
  | none => rw [hsc] at h2; simp at h2
  | some e => rw [hsc] at h1; simp at h1

/-- A token sequence containing two take-all-capable tokens is always
rejected by the scanner. -/
theorem scanGo_two_takeAll :
    ∀ (ps : List CommandPattern) (st : CommandPatternScanner),
      2 ≤ (ps.filter CommandPattern.isTakingAll).length → scanGo st ps ≠ [] := by
  intro ps
  induction ps with
  | nil => intro st h; simp at h
  | cons p rest ih =>
    intro st h2
    by_cases hst : st.takeAll = true
    · exact scanGo_ne_nil_of_takeAll hst p rest
    · by_cases hp : p.isTakingAll = true
      · have hst' : ((st.scan p).1).takeAll = true := by
          rw [scan_fst_takeAll]; simp [hp]
        have hr : 1 ≤ (rest.filter CommandPattern.isTakingAll).length := by
          rw [List.filter_cons_of_pos hp] at h2
          simpa using Nat.le_of_succ_le_succ h2
        cases hrest : rest with
        | nil => rw [hrest] at hr; simp at hr
        | cons q qs =>
          simp only [scanGo]
          intro hcon
          exact scanGo_ne_nil_of_takeAll hst' q qs
            ((List.append_eq_nil.mp hcon).2)
      · have h2' : 2 ≤ (rest.filter CommandPattern.isTakingAll).length := by
          rwa [List.filter_cons_of_neg (by simpa using hp)] at h2
        simp only [scanGo]
        intro hcon
        exact ih (st.scan p).1 h2' (List.append_eq_nil.mp hcon).2

/-- The `rev_on` rearrangement permutes the token list. -/
theorem revOn_map_fst_perm {α : Type} (f : α → Bool) :
    ∀ l : List α, ((revOn f l).map Prod.fst).Perm l := by
  intro l
  induction l with
  | nil => simp [revOn]
  | cons x xs ih =>
    simp only [revOn]
    by_cases hx : f x = true
    · rw [if_pos hx, List.map_append]
      have h1 : (xs.reverse.map (fun a => (a, true))).map Prod.fst = xs.reverse := by
        rw [List.map_map]
        have hid : (Prod.fst ∘ fun a => ((a : α), true)) = id := rfl
        rw [hid, List.map_id]
      rw [h1]
      have h2 : ([((x : α), true)].map Prod.fst) = [x] := rfl
      rw [h2]
      exact List.Perm.trans List.perm_append_comm ((List.reverse_perm xs).cons x)
    · rw [if_neg hx]
      simpa using ih.cons x

/-- C2 (counterexample): the template `"!a <rest..> <tail>"` carries a
token after its take-all token, yet it compiles with no diagnostic — the
scanner sees the tokens in `rev_on` order, where the take-all comes last. -/
theorem c2_counterexample :
    compileErrors (str (r"!a <rest..> <tail>")) = [] ∧
    templateTokens (str (r"!a <rest..> <tail>")) =
      [.command (str (r"!a")), .argument (str (r"rest")) true false,
       .argument (str (r"tail")) false false] ∧
    (CommandPattern.argument (str (r"rest")) true false).isTakingAll = true := by
  refine ⟨rfl, rfl, rfl⟩

/-- C2 (amended): a template whose (deduplicated) token list contains two
take-all-capable tokens fails at compile time with at least one
diagnostic. -/
theorem c2_two_take_all_rejected (tmpl : Str)
    (h : 2 ≤ ((templateTokens tmpl).filter CommandPattern.isTakingAll).length) :
    compileErrors tmpl ≠ [] := by
  unfold compileErrors scanAll compiledSequence
  apply scanGo_two_takeAll
  rwa [((revOn_map_fst_perm CommandPattern.isTakingAll
    (templateTokens tmpl)).filter CommandPattern.isTakingAll).length_eq]

/-- Witness for C2 (amended): the template `"<a..> <b..>"` has two
take-all tokens and is rejected. -/
theorem c2_two_take_all_rejected_witness :
    2 ≤ ((templateTokens (str (r"<a..> <b..>"))).filter
      CommandPattern.isTakingAll).length ∧
    compileErrors (str (r"<a..> <b..>")) ≠ [] :=
  ⟨by decide, c2_two_take_all_rejected (str (r"<a..> <b..>")) (by decide)⟩

/-! ## C9: dispatch short-circuiting -/

/-- A concrete sender for dispatch examples. -/
def bobUser : User := ⟨str (r"bob"), none, none⟩

/-- A non-terminal handler is skipped, at most contributing to the
accumulator. -/
theorem processGo_cons_nonterminal {R : Type} (sender : User) (h : Handler R)
    (t : List (Handler R)) (acc : Option FindSharedSyntax)
    (hh : terminalHandler h = false) :
    processGo sender (h :: t) acc =
      processGo sender t
        (if accumulatingHandler h then
          some (match acc with
            | some fss => fss.append h.pat
            | none => FindSharedSyntax.new h.pat)
         else acc) := by
  cases hout : h.outcome with
  | ok r => simp [terminalHandler, hout] at hh
  | error e =>
    have harg : (h.showSyntax && e.isArgumentError) = false := by
      simpa [terminalHandler, hout] using hh
    have hacc : accumulatingHandler h = (h.showSyntax && e.isSubcommandMismatch) := by
      simp [accumulatingHandler, hout]
    simp only [processGo, hout, harg, Bool.false_eq_true, if_false, hacc]
    by_cases hsub : (h.showSyntax && e.isSubcommandMismatch) = true <;>
      simp [hsub]

/-- Once the accumulator is non-empty, dispatch always produces a reply. -/
theorem processGo_acc_some_ne_none {R : Type} (sender : User) :
    ∀ (hs : List (Handler R)) (fss : FindSharedSyntax),
      processGo sender hs (some fss) ≠ none := by
  intro hs
  induction hs with
  | nil => intro fss; simp [processGo]
  | cons h t ih =>
    intro fss
    cases hout : h.outcome with
    | ok r => simp [processGo, hout]
    | error e =>
      simp only [processGo, hout]
      by_cases h1 : (h.showSyntax && e.isArgumentError) = true
      · simp [h1]
      · by_cases h2 : (h.showSyntax && e.isSubcommandMismatch) = true
        · simp only [h1, Bool.false_eq_true, if_false, h2, if_true]
          exact ih _
        · simp only [h1, Bool.false_eq_true, if_false, h2]
          exact ih fss

/-- Skipping a non-terminal run of handlers only moves the accumulator. -/
theorem processGo_append_nonterminal {R : Type} (sender : User) :
    ∀ (pre l : List (Handler R)) (acc : Option FindSharedSyntax),
      (∀ h' ∈ pre, terminalHandler h' = false) →
      ∃ acc', processGo sender (pre ++ l) acc = processGo sender l acc' := by
  intro pre
  induction pre with
  | nil => intro l acc _; exact ⟨acc, rfl⟩
  | cons h t ih =>
    intro l acc hall
    rw [List.cons_append,
      processGo_cons_nonterminal sender h (t ++ l) acc (hall h (by simp))]
    exact ih l _ (fun h' hm => hall h' (by simp [hm]))

/-- C9 (counterexample): with a `show_syntax` handler failing on a missing
argument ahead of a succeeding handler, dispatch returns the syntax reply
of the failing handler, not the response of the first succeeding handler;
and with that failing handler alone — no success and nothing accumulated —
dispatch still produces a reply. -/
theorem c9_counterexample :
    process bobUser
      [⟨.error .argumentMissing, true, str (r"!a <x>")⟩,
       ⟨.ok 42, false, str (r"!b <y>")⟩] =
      some (.syntaxReply (str (r"@bob !a <x>"))) ∧
    (Handler.outcome (R := Nat) ⟨.ok 42, false, str (r"!b <y>")⟩ = .ok 42) ∧
    some (Reply.syntaxReply (R := Nat) (str (r"@bob !a <x>"))) ≠
      some (.handlerResponse 42) ∧
    process (R := Nat) bobUser
      [⟨.error .argumentMissing, true, str (r"!a <x>")⟩] =
      some (.syntaxReply (str (r"@bob !a <x>"))) :=
  ⟨rfl, rfl, by decide, rfl⟩

/-- C9 (amended): handlers run in declaration order, and the first
handler that either succeeds or fails with an argument error while having
`show_syntax` enabled ends dispatch at once — a success returns that
handler's response, the argument-error case an immediate syntax reply for
that handler — with no later handler run; when no handler ends dispatch
this way, a reply is produced iff some `show_syntax` handler failed with a
subcommand mismatch, and otherwise dispatch produces no reply at all. -/
theorem c9_dispatch_first_terminal :
    (∀ (R : Type) (sender : User) (pre : List (Handler R)) (h : Handler R)
        (rest : List (Handler R)),
      (∀ h' ∈ pre, terminalHandler h' = false) →
      (∀ r, h.outcome = .ok r →
        process sender (pre ++ h :: rest) = some (.handlerResponse r)) ∧
      (∀ e, h.outcome = .error e → (h.showSyntax && e.isArgumentError) = true →
        process sender (pre ++ h :: rest) =
          some (.syntaxReply (userMention sender ++ str (r" ") ++ h.pat)))) ∧
    (∀ (R : Type) (sender : User) (hs : List (Handler R)),
      (∀ h ∈ hs, terminalHandler h = false) →
      (process sender hs = none ↔ ∀ h ∈ hs, accumulatingHandler h = false)) := by
  constructor
  · intro R sender pre h rest hpre
    obtain ⟨acc', hacc⟩ :=
      processGo_append_nonterminal sender pre (h :: rest) none hpre
    constructor
    · intro r hout
      unfold process
      rw [hacc]
      simp [processGo, hout]
    · intro e hout hflag
      unfold process
      rw [hacc]
      simp [processGo, hout, hflag]
  · intro R sender hs
    induction hs with
    | nil => intro _; simp [process, processGo]
    | cons h t ih =>
      intro hall
      have hh := hall h (by simp)
      have htail : ∀ h' ∈ t, terminalHandler h' = false :=
        fun h' hm => hall h' (by simp [hm])
      unfold process at ih ⊢
      rw [processGo_cons_nonterminal sender h t none hh]
      by_cases hacc : accumulatingHandler h = true
      · rw [if_pos hacc]
        constructor
        · intro hnone
          exact absurd hnone (processGo_acc_some_ne_none sender t _)
        · intro hforall
          exact absurd (hforall h (by simp)) (by simp [hacc])
      · rw [if_neg hacc]
        rw [ih htail]
        constructor
        · intro hforall h' hm
          rcases List.mem_cons.mp hm with rfl | hm'
          · simpa using hacc
          · exact hforall h' hm'
        · intro hforall h' hm'
          exact hforall h' (by simp [hm'])

/-- Witness for C9 (amended): both parts applied at concrete handler
lists. -/
theorem c9_dispatch_first_terminal_witness :
    ((∀ h' ∈ ([⟨.error .commandMismatch, false, str (r"!a <x>")⟩] :
        List (Handler Nat)), terminalHandler h' = false) ∧
      process bobUser
        ([⟨.error .commandMismatch, false, str (r"!a <x>")⟩] ++
          (⟨.ok 42, false, str (r"!b <y>")⟩ : Handler Nat) :: []) =
        some (.handlerResponse 42)) ∧
    ((∀ h ∈ ([⟨.error .commandMismatch, true, str (r"!a <x>")⟩] :
        List (Handler Nat)), terminalHandler h = false) ∧
      (process bobUser
        ([⟨.error .commandMismatch, true, str (r"!a <x>")⟩] :
          List (Handler Nat)) = none ↔
        ∀ h ∈ ([⟨.error .commandMismatch, true, str (r"!a <x>")⟩] :
          List (Handler Nat)), accumulatingHandler h = false)) := by
  have h1 := (c9_dispatch_first_terminal.1 Nat bobUser
    [⟨.error .commandMismatch, false, str (r"!a <x>")⟩]
    ⟨.ok 42, false, str (r"!b <y>")⟩ [] (by decide)).1 42 rfl
  have h2 := c9_dispatch_first_terminal.2 Nat bobUser
    [⟨.error .commandMismatch, true, str (r"!a <x>")⟩] (by decide)
  exact ⟨⟨by decide, h1⟩, ⟨by decide, h2⟩⟩

/-! ## C8: the global identity index under a display-name change -/

/-- Well-formedness of the identity index, phrased decidably: every index
entry points at an in-range record bearing that key, and every record's
keys are found at its own position. -/
def chattersWF (st : AllChatters) : Bool :=
  st.usernames.all (fun p =>
    decide (p.2 < st.users.length) &&
    (st.users.getD p.2 defU).username == p.1) &&
  st.display_names.all (fun p =>
    decide (p.2 < st.users.length) &&
    (st.users.getD p.2 defU).display_name == some p.1) &&
  st.user_ids.all (fun p =>
    decide (p.2 < st.users.length) &&
    (st.users.getD p.2 defU).user_id == some p.1) &&
  (List.range st.users.length).all (fun i =>
    (alGet st.usernames (st.users.getD i defU).username == some i) &&
    ((st.users.getD i defU).display_name.all
      (fun dn => alGet st.display_names dn == some i)) &&
    ((st.users.getD i defU).user_id.all
      (fun uid => alGet st.user_ids uid == some i)))

/-- A successful association-list lookup exhibits a member entry. -/
theorem alGet_some_mem {m : Index} {k : Str} {i : Nat}
    (h : alGet m k = some i) : (k, i) ∈ m := by
  unfold alGet at h
  cases hf : m.find? (fun p => p.1 = k) with
  | none => rw [hf] at h; cases h
  | some pr =>
    rw [hf] at h
    have hmem := List.mem_of_find?_eq_some hf
    have hps := List.find?_some (p := fun (q : Str × Nat) => decide (q.1 = k)) hf
    have hp : pr.1 = k := of_decide_eq_true hps
    have hi : pr.2 = i := Option.some.inj h
    have hpr : pr = (k, i) := Prod.ext hp hi
    rwa [hpr] at hmem

/-- Lookup after inserting the same key. -/
theorem alGet_alInsert_same (m : Index) (k : Str) (v : Nat) :
    alGet (alInsert m k v) k = some v := by
  induction m with
  | nil => simp [alInsert, alGet, List.find?]
  | cons p rest ih =>
    by_cases hp : p.1 = k
    · simp [alInsert, hp, alGet, List.find?]
    · simp only [alInsert, hp, if_false]
      unfold alGet at ih ⊢
      rw [List.find?_cons_of_neg _ (by simpa using hp)]
      exact ih

/-- Lookup after inserting a different key. -/
theorem alGet_alInsert_other (m : Index) (k k' : Str) (v : Nat)
    (h : k' ≠ k) : alGet (alInsert m k v) k' = alGet m k' := by
  induction m with
  | nil =>
    simp only [alInsert, alGet]
    rw [List.find?_cons_of_neg _ (by simpa using fun hc => h (Eq.symm hc))]
  | cons p rest ih =>
    unfold alGet at ih ⊢
    by_cases hp : p.1 = k
    · have hne : ¬ (p.1 = k') := by
        rw [hp]
        exact fun hc => h hc.symm
      simp only [alInsert, hp, if_true]
      rw [List.find?_cons_of_neg _ (by simpa using fun hc => h (Eq.symm hc)),
        List.find?_cons_of_neg _ (by simpa using hne)]
    · simp only [alInsert, hp, if_false]
      by_cases hk' : p.1 = k'
      · rw [List.find?_cons_of_pos _ (by simpa using hk'),
          List.find?_cons_of_pos _ (by simpa using hk')]
      · rw [List.find?_cons_of_neg _ (by simpa using hk'),
          List.find?_cons_of_neg _ (by simpa using hk')]
        exact ih

/-- Lookup of the removed key fails. -/
theorem alGet_alRemove_same (m : Index) (k : Str) :
    alGet (alRemove m k) k = none := by
  unfold alGet
  rw [List.find?_eq_none.mpr]
  intro p hp
  have hmem := List.of_mem_filter hp
  simp only [decide_not] at hmem
  intro hcon
  exact absurd (of_decide_eq_true hcon) (by simpa using hmem)

/-- Lookup of another key is unaffected by a removal. -/
theorem alGet_alRemove_other (m : Index) (k k' : Str) (h : k' ≠ k) :
    alGet (alRemove m k) k' = alGet m k' := by
  induction m with
  | nil => rfl
  | cons p rest ih =>
    unfold alGet at ih ⊢
    by_cases hp : p.1 = k
    · have hne : ¬ (p.1 = k') := by
        rw [hp]
        exact fun hc => h hc.symm
      have hrem : alRemove (p :: rest) k = alRemove rest k := by
        simp [alRemove, List.filter_cons, hp]
      rw [hrem, List.find?_cons_of_neg _ (by simpa using hne)]
      exact ih
    · have hrem : alRemove (p :: rest) k = p :: alRemove rest k := by
        simp [alRemove, List.filter_cons, hp]
      rw [hrem]
      by_cases hk' : p.1 = k'
      · rw [List.find?_cons_of_pos _ (by simpa using hk'),
          List.find?_cons_of_pos _ (by simpa using hk')]
      · rw [List.find?_cons_of_neg _ (by simpa using hk'),
          List.find?_cons_of_neg _ (by simpa using hk')]
        exact ih

/-- Membership after insertion: the new entry or an old one. -/
theorem mem_alInsert {m : Index} {k : Str} {v : Nat} {p : Str × Nat}
    (h : p ∈ alInsert m k v) : p = (k, v) ∨ p ∈ m := by
  induction m with
  | nil => simpa [alInsert] using h
  | cons q rest ih =>
    by_cases hq : q.1 = k
    · simp only [alInsert, hq, if_true] at h
      rcases List.mem_cons.mp h with h | h
      · exact Or.inl h
      · exact Or.inr (List.mem_cons.mpr (Or.inr h))
    · simp only [alInsert, hq, if_false] at h
      rcases List.mem_cons.mp h with h | h
      · exact Or.inr (List.mem_cons.mpr (Or.inl h))
      · rcases ih h with h | h
        · exact Or.inl h
        · exact Or.inr (List.mem_cons.mpr (Or.inr h))

/-- Membership after removal. -/
theorem mem_alRemove {m : Index} {k : Str} {p : Str × Nat}
    (h : p ∈ alRemove m k) : p ∈ m ∧ p.1 ≠ k := by
  refine ⟨List.mem_of_mem_filter h, ?_⟩
  have := List.of_mem_filter h
  simpa using this

/-- Reading an updated list at the updated position. -/
theorem getD_set_self {α : Type} {l : List α} {i : Nat} {a d : α}
    (h : i < l.length) : (l.set i a).getD i d = a := by
  rw [List.getD_eq_getElem?_getD, List.getElem?_set_self h]
  rfl

/-- Reading an updated list away from the updated position. -/
theorem getD_set_ne {α : Type} {l : List α} {i j : Nat} (h : i ≠ j) {a d : α} :
    (l.set i a).getD j d = l.getD j d := by
  rw [List.getD_eq_getElem?_getD, List.getElem?_set_ne h,
    List.getD_eq_getElem?_getD]

/-- Unpack the decidable well-formedness of the identity index into its six
propositional components. -/
theorem chattersWF_parts {st : AllChatters} (h : chattersWF st = true) :
    (∀ p ∈ st.usernames, p.2 < st.users.length ∧
      (st.users.getD p.2 defU).username = p.1) ∧
    (∀ p ∈ st.display_names, p.2 < st.users.length ∧
      (st.users.getD p.2 defU).display_name = some p.1) ∧
    (∀ p ∈ st.user_ids, p.2 < st.users.length ∧
      (st.users.getD p.2 defU).user_id = some p.1) ∧
    (∀ i, i < st.users.length →
      alGet st.usernames ((st.users.getD i defU).username) = some i ∧
      (∀ dn, (st.users.getD i defU).display_name = some dn →
        alGet st.display_names dn = some i) ∧
      (∀ uid, (st.users.getD i defU).user_id = some uid →
        alGet st.user_ids uid = some i)) := by
  unfold chattersWF at h
  simp only [Bool.and_eq_true, List.all_eq_true] at h
  obtain ⟨⟨⟨h1, h2⟩, h3⟩, h4⟩ := h
  refine ⟨?_, ?_, ?_, ?_⟩
  · intro p hp
    have hh := h1 p hp
    simp only [Bool.and_eq_true, decide_eq_true_eq, beq_iff_eq] at hh
    exact hh
  · intro p hp
    have hh := h2 p hp
    simp only [Bool.and_eq_true, decide_eq_true_eq, beq_iff_eq] at hh
    exact hh
  · intro p hp
    have hh := h3 p hp
    simp only [Bool.and_eq_true, decide_eq_true_eq, beq_iff_eq] at hh
    exact hh
  · intro i hi
    have hh := h4 i (List.mem_range.mpr hi)
    simp only [Bool.and_eq_true] at hh
    refine ⟨by simpa using hh.1.1, ?_, ?_⟩
    · intro dn hdn
      have hb := hh.1.2
      rw [hdn] at hb
      simpa using hb
    · intro uid huid
      have hb := hh.2
      rw [huid] at hb
      simpa using hb

/-- C8: observing a known user (resolved by numeric id) whose display name
changed updates the record in place and re-keys the display-name index:
the old display key is gone, the new one resolves to the same record, every
display and username index entry still points at a record bearing that key,
the user list keeps its length, and no two records carry the same numeric
id. -/
theorem c8_display_rename (st : AllChatters) (chatter : User)
    (uid : Str) (i : Nat) (dOld dNew : Str)
    (hwf : chattersWF st = true)
    (hcid : chatter.user_id = some uid)
    (hresolve : alGet st.user_ids uid = some i)
    (huname : (st.users.getD i defU).username = chatter.username)
    (hdold : (st.users.getD i defU).display_name = some dOld)
    (hdnew : chatter.display_name = some dNew)
    (hne : dOld ≠ dNew) :
    (st.updateOrInsert chatter).2 = i ∧
    (st.updateOrInsert chatter).1.users.length = st.users.length ∧
    alGet (st.updateOrInsert chatter).1.display_names dOld = none ∧
    alGet (st.updateOrInsert chatter).1.display_names dNew = some i ∧
    (∀ p ∈ (st.updateOrInsert chatter).1.display_names,
      p.2 < st.users.length ∧
      ((st.updateOrInsert chatter).1.users.getD p.2 defU).display_name =
        some p.1) ∧
    (∀ p ∈ (st.updateOrInsert chatter).1.usernames,
      p.2 < st.users.length ∧
      ((st.updateOrInsert chatter).1.users.getD p.2 defU).username = p.1) ∧
    (∀ j1 j2 : Nat, ∀ u : Str, j1 < st.users.length → j2 < st.users.length →
      ((st.updateOrInsert chatter).1.users.getD j1 defU).user_id = some u →
      ((st.updateOrInsert chatter).1.users.getD j2 defU).user_id = some u →
      j1 = j2) := by
  obtain ⟨hwfU, hwfD, hwfI, hwfR⟩ := chattersWF_parts hwf
  obtain ⟨hilt, hiid⟩ := hwfI (uid, i) (alGet_some_mem hresolve)
  have hr0 : st.updateOrInsert chatter = st.updateKnown chatter i := by
    unfold AllChatters.updateOrInsert
    have hidx : st.index chatter = some i := by
      unfold AllChatters.index
      rw [hcid]
      exact hresolve
    rw [hidx]
  have hiid2 : (st.users.getD i defU).user_id = some uid := hiid
  have hilt2 : i < st.users.length := hilt
  have hr : st.updateKnown chatter i =
      ({ usernames := st.usernames,
         display_names := alInsert (alRemove st.display_names dOld) dNew i,
         user_ids := st.user_ids,
         users := st.users.set i
           { st.users.getD i defU with display_name := chatter.display_name } },
       i) := by
    have hc1 : ((st.users.getD i defU).username ≠ chatter.username) = False := by
      rw [huname]
      simp
    have hc2 : ((some dOld : Option Str) ≠ some dNew) = True := by
      simp [hne]
    unfold AllChatters.updateKnown
    simp only [User.updateUsername, User.updateDisplayName, User.setUserId,
      hc1, hc2, hiid2, hdnew, hdold, if_false, if_true, Option.some_ne_none,
      false_and, and_false, Option.isSome_some]
  rw [hr0, hr]
  refine ⟨rfl, by simp, ?_, ?_, ?_, ?_, ?_⟩
  · rw [alGet_alInsert_other _ _ _ _ hne, alGet_alRemove_same]
  · exact alGet_alInsert_same _ _ _
  · intro p hp
    rcases mem_alInsert hp with hpeq | hpm
    · subst hpeq
      refine ⟨hilt, ?_⟩
      rw [getD_set_self hilt]
      simpa using hdnew
    · obtain ⟨hpm', hpne⟩ := mem_alRemove hpm
      obtain ⟨hplt, hpd⟩ := hwfD p hpm'
      refine ⟨hplt, ?_⟩
      by_cases hpi : p.2 = i
      · rw [hpi] at hpd
        rw [hdold] at hpd
        exact absurd (Option.some.inj hpd).symm hpne
      · rw [getD_set_ne (fun hc => hpi hc.symm)]
        exact hpd
  · intro p hp
    obtain ⟨hplt, hpu⟩ := hwfU p hp
    refine ⟨hplt, ?_⟩
    by_cases hpi : p.2 = i
    · subst hpi
      rw [getD_set_self hplt]
      simpa using hpu
    · rw [getD_set_ne (fun hc => hpi hc.symm)]
      exact hpu
  · intro j1 j2 u hj1 hj2 hu1 hu2
    have hsame : ∀ j, j < st.users.length →
        ((st.users.set i { st.users.getD i defU with
          display_name := chatter.display_name }).getD j defU).user_id =
        (st.users.getD j defU).user_id := by
      intro j hj
      by_cases hji : j = i
      · subst hji
        rw [getD_set_self (by omega)]
      · rw [getD_set_ne (fun hc => hji hc.symm)]
    rw [hsame j1 hj1] at hu1
    rw [hsame j2 hj2] at hu2
    have ha := (hwfR j1 hj1).2.2 u hu1
    have hb := (hwfR j2 hj2).2.2 u hu2
    rw [ha] at hb
    exact Option.some.inj hb

/-- Witness for C8: a one-record registry whose user alice (id 1) is
observed with display name B instead of A. -/
theorem c8_display_rename_witness :
    chattersWF ⟨[(str (r"alice"), 0)], [(str (r"A"), 0)], [(str (r"1"), 0)],
      [⟨str (r"alice"), some (str (r"A")), some (str (r"1"))⟩]⟩ = true ∧
    alGet (AllChatters.updateOrInsert
      ⟨[(str (r"alice"), 0)], [(str (r"A"), 0)], [(str (r"1"), 0)],
        [⟨str (r"alice"), some (str (r"A")), some (str (r"1"))⟩]⟩
      ⟨str (r"alice"), some (str (r"B")), some (str (r"1"))⟩).1.display_names
      (str (r"A")) = none ∧
    alGet (AllChatters.updateOrInsert
      ⟨[(str (r"alice"), 0)], [(str (r"A"), 0)], [(str (r"1"), 0)],
        [⟨str (r"alice"), some (str (r"A")), some (str (r"1"))⟩]⟩
      ⟨str (r"alice"), some (str (r"B")), some (str (r"1"))⟩).1.display_names
      (str (r"B")) = some 0 := by
  have h := c8_display_rename
    ⟨[(str (r"alice"), 0)], [(str (r"A"), 0)], [(str (r"1"), 0)],
      [⟨str (r"alice"), some (str (r"A")), some (str (r"1"))⟩]⟩
    ⟨str (r"alice"), some (str (r"B")), some (str (r"1"))⟩
    (str (r"1")) 0 (str (r"A")) (str (r"B"))
    (by decide) rfl rfl rfl rfl rfl (by decide)
  exact ⟨by decide, h.2.2.1, h.2.2.2.1⟩

/-! ## C1: matching is all-or-nothing -/

/-- A string splits into no words exactly when it is all whitespace. -/
theorem splitW_eq_nil_iff : ∀ (x : Str), (splitW x = [] ↔ ∀ c ∈ x, isWS c = true) := by
  intro x
  induction x with
  | nil => simp [splitW_nil]
  | cons c s ih =>
    by_cases hc : isWS c = true
    · rw [splitW_cons_ws s hc]
      simp [hc, ih]
    · rw [splitW_cons_word s hc]
      simp [hc]

/-- A string trims to nothing exactly when it is all whitespace. -/
theorem trim_eq_nil_iff (x : Str) : (trim x = [] ↔ ∀ c ∈ x, isWS c = true) := by
  unfold trim
  rw [List.reverse_eq_nil_iff, List.dropWhile_eq_nil_iff]
  constructor
  · intro h c hc
    rcases List.mem_append.mp
      ((List.takeWhile_append_dropWhile isWS x) ▸ hc) with hm | hm
    · exact List.mem_takeWhile_imp hm
    · exact h c (List.mem_reverse.mpr hm)
  · intro h c hc
    exact h c (List.dropWhile_subset isWS (List.mem_reverse.mp hc))

/-- The trailing empty check: no word remains exactly when the trimmed
remaining range is empty. -/
theorem nextRest_isSome_iff (ca : CommandArguments) :
    ((ca.nextRest).2.isSome = true) ↔ splitW ca.slice ≠ [] := by
  unfold CommandArguments.nextRest CommandArguments.noneIfEmpty
  simp only [CommandArguments.asStr]
  by_cases h : (trim ca.slice).isEmpty = true
  · rw [List.isEmpty_iff] at h
    have hs : splitW ca.slice = [] :=
      (splitW_eq_nil_iff _).mpr ((trim_eq_nil_iff _).mp h)
    simp [List.isEmpty_iff, h, hs]
  · rw [List.isEmpty_iff] at h
    have hs : splitW ca.slice ≠ [] := fun hc =>
      h ((trim_eq_nil_iff _).mpr ((splitW_eq_nil_iff _).mp hc))
    simp [List.isEmpty_iff, h, hs]

/-- C1: for every token sequence and every input, when the generated
matcher has consumed all tokens successfully, any remaining unconsumed
input word makes the match fail with `ArgumentsLeftOver`, and the match
succeeds only when no input word remains unconsumed. -/
theorem c1_match_all_or_nothing (pok : ParseOk)
    (toks : List (CommandPattern × Bool)) (input : Str) (st : MatchState)
    (hrun : runTokens pok toks (initialState input) = .ok st) :
    (splitW st.iter.slice ≠ [] →
      matchTokens pok toks input = .error .argumentsLeftOver) ∧
    (splitW st.iter.slice = [] →
      matchTokens pok toks input = .ok st.binds) := by
  unfold matchTokens
  rw [hrun]
  dsimp only
  constructor
  · intro hw
    rw [if_pos ((nextRest_isSome_iff st.iter).mpr hw)]
  · intro hw
    rw [if_neg ?_]
    intro hcon
    exact (nextRest_isSome_iff st.iter).mp hcon hw

/-- Witness for C1: the spec's example — `"!song rm <command>"` against
`"!song rm !walk extra"` — reaches the empty check with the word `extra`
left over and fails with `ArgumentsLeftOver` (stated through the compiled
template, `matchTemplate = matchTokens` on its `compiledSequence`). -/
theorem c1_match_all_or_nothing_witness :
    runTokens pokTrue (compiledSequence (str (r"!song rm <command>")))
      (initialState (str (r"!song rm !walk extra"))) =
      .ok ⟨⟨str (r"!song rm !walk extra"), 14, 20⟩,
        [(str (r"command"), some (str (r"!walk")))]⟩ ∧
    splitW (CommandArguments.slice ⟨str (r"!song rm !walk extra"), 14, 20⟩) ≠ [] ∧
    matchTokens pokTrue (compiledSequence (str (r"!song rm <command>")))
      (str (r"!song rm !walk extra")) = .error .argumentsLeftOver ∧
    matchTemplate pokTrue (str (r"!song rm <command>"))
      (str (r"!song rm !walk extra")) = .error .argumentsLeftOver := by
  refine ⟨rfl, by decide, ?_, ?_⟩
  · exact (c1_match_all_or_nothing pokTrue
      (compiledSequence (str (r"!song rm <command>")))
      (str (r"!song rm !walk extra"))
      ⟨⟨str (r"!song rm !walk extra"), 14, 20⟩,
        [(str (r"command"), some (str (r"!walk")))]⟩ rfl).1 (by decide)
  · exact (c1_match_all_or_nothing pokTrue
      (compiledSequence (str (r"!song rm <command>")))
      (str (r"!song rm !walk extra"))
      ⟨⟨str (r"!song rm !walk extra"), 14, 20⟩,
        [(str (r"command"), some (str (r"!walk")))]⟩ rfl).1 (by decide)

/-! ## Word-structure lemmas shared by C6 and C7 -/

/-- The first index satisfying `p` is the length of the run not
satisfying it. -/
theorem findIdx_eq_length_takeWhile (p : Char → Bool) (l : Str) :
    l.findIdx p = (l.takeWhile (fun a => !(p a))).length := by
  induction l with
  | nil => rfl
  | cons c s ih =>
    rw [List.findIdx_cons]
    by_cases hc : p c = true
    · simp [hc]
    · have hc' : p c = false := by simpa using hc
      simp [hc', ih]

/-- Taking up to the first index satisfying `p` is the run not
satisfying it. -/
theorem take_findIdx_eq_takeWhile (p : Char → Bool) (l : Str) :
    l.take (l.findIdx p) = l.takeWhile (fun a => !(p a)) := by
  rw [findIdx_eq_length_takeWhile]
  exact (List.prefix_iff_eq_take.mp (List.takeWhile_prefix _)).symm

/-- Dropping the matched run leaves `dropWhile`. -/
theorem drop_length_takeWhile (p : Char → Bool) (l : Str) :
    l.drop ((l.takeWhile p).length) = l.dropWhile p := by
  have h := List.drop_left (l.takeWhile p) (l.dropWhile p)
  rwa [List.takeWhile_append_dropWhile] at h

/-- An all-whitespace string has no leading word characters. -/
theorem takeWhile_notWS_of_all_ws {t : Str} (ht : ∀ c ∈ t, isWS c = true) :
    t.takeWhile notWS = [] := by
  cases t with
  | nil => rfl
  | cons c s =>
    have : notWS c = false := by simp [notWS, ht c (by simp)]
    simp [List.takeWhile_cons, this]

/-- A non-empty all-word-character string is a single word. -/
theorem splitW_word {w : Str} (hw : w ≠ []) (hall : ∀ c ∈ w, notWS c = true) :
    splitW w = [w] := by
  cases w with
  | nil => exact absurd rfl hw
  | cons c s =>
    have hc : ¬ isWS c = true := by
      have := hall c (by simp)
      simp [notWS] at this
      simp [this]
    rw [splitW_cons_word s hc]
    rw [List.takeWhile_eq_self_iff.mpr hall,
      List.dropWhile_eq_nil_iff.mpr hall, splitW_nil]

/-- Leading whitespace does not contribute words. -/
theorem splitW_ws_append {a : Str} (x : Str) (ha : ∀ c ∈ a, isWS c = true) :
    splitW (a ++ x) = splitW x := by
  induction a with
  | nil => rfl
  | cons c t ih =>
    rw [List.cons_append, splitW_cons_ws _ (ha c (by simp))]
    exact ih (fun c' hc' => ha c' (by simp [hc']))

/-- Trailing whitespace does not contribute words. -/
theorem splitW_append_ws {t : Str} (ht : ∀ c ∈ t, isWS c = true) :
    ∀ (N : Nat) (y : Str), y.length ≤ N → splitW (y ++ t) = splitW y := by
  intro N
  induction N with
  | zero =>
    intro y hy
    have hnil : y = [] := List.eq_nil_of_length_eq_zero (Nat.le_zero.mp hy)
    subst hnil
    rw [List.nil_append, splitW_nil]
    exact (splitW_eq_nil_iff t).mpr ht
  | succ N ih =>
    intro y hy
    cases y with
    | nil =>
      rw [List.nil_append, splitW_nil]
      exact (splitW_eq_nil_iff t).mpr ht
    | cons c s =>
      by_cases hc : isWS c = true
      · rw [List.cons_append, splitW_cons_ws _ hc, splitW_cons_ws _ hc]
        exact ih s (by simpa using hy)
      · rw [List.cons_append, splitW_cons_word _ hc, splitW_cons_word _ hc,
          ← List.cons_append]
        have htW : t.takeWhile notWS = [] := takeWhile_notWS_of_all_ws ht
        have htD : t.dropWhile notWS = t := by
          cases t with
          | nil => rfl
          | cons c0 t0 =>
            have : notWS c0 = false := by simp [notWS, ht c0 (by simp)]
            simp [List.dropWhile_cons, this]
        by_cases hfull : ((c :: s).takeWhile notWS).length = (c :: s).length
        · -- the word runs to the end of y
          have htake : ((c :: s) ++ t).takeWhile notWS = (c :: s) ++ t.takeWhile notWS := by
            rw [List.takeWhile_append, if_pos hfull]
          have htake2 : (c :: s).takeWhile notWS = c :: s := by
            have hpre := List.takeWhile_prefix (l := c :: s) notWS
            exact List.IsPrefix.eq_of_length hpre hfull
          have hdropy : (c :: s).dropWhile notWS = [] := by
            have := drop_length_takeWhile notWS (c :: s)
            rw [htake2] at this
            rw [← this]
            simp
          have hdrop : ((c :: s) ++ t).dropWhile notWS = t := by
            rw [List.dropWhile_append, if_pos (by simp [hdropy]), htD]
          rw [htake, htake2, htW, List.append_nil, hdrop, hdropy, splitW_nil]
          rw [(splitW_eq_nil_iff t).mpr ht]
        · -- the word ends inside y
          have htake : ((c :: s) ++ t).takeWhile notWS = (c :: s).takeWhile notWS := by
            rw [List.takeWhile_append, if_neg hfull]
          have hdropy : (c :: s).dropWhile notWS ≠ [] := by
            intro hcon
            have hlen := congrArg List.length
              (List.takeWhile_append_dropWhile notWS (c :: s))
            rw [List.length_append, hcon] at hlen
            simp at hlen
            exact hfull hlen
          have hdrop : ((c :: s) ++ t).dropWhile notWS =
              (c :: s).dropWhile notWS ++ t := by
            rw [List.dropWhile_append,
              if_neg (by simpa [List.isEmpty_iff] using hdropy)]
          rw [htake, hdrop]
          congr 1
          have hlt : ((c :: s).dropWhile notWS).length ≤ N := by
            have h1 : ((c :: s).dropWhile notWS).length ≤ s.length := by
              have heq : (c :: s).dropWhile notWS = s.dropWhile notWS := by
                have hcnw : notWS c = true := by simp [notWS, hc]
                simp [List.dropWhile_cons, hcnw]
              rw [heq]
              exact (List.dropWhile_sublist notWS).length_le
            have h2 : s.length + 1 ≤ N + 1 := by simpa using hy
            omega
          exact ih _ hlt

/-- Prepending a word to a string that starts with whitespace (or is empty)
adds exactly that word. -/
theorem splitW_word_cons {w : Str} (z : Str) (hw : w ≠ [])
    (hall : ∀ c ∈ w, notWS c = true)
    (hz : z = [] ∨ ∃ c rest, z = c :: rest ∧ isWS c = true) :
    splitW (w ++ z) = w :: splitW z := by
  have hzW : z.takeWhile notWS = [] := by
    rcases hz with rfl | ⟨c, rest, rfl, hc⟩
    · rfl
    · have : notWS c = false := by simp [notWS, hc]
      simp [List.takeWhile_cons, this]
  have hzD : z.dropWhile notWS = z := by
    rcases hz with rfl | ⟨c, rest, rfl, hc⟩
    · rfl
    · have : notWS c = false := by simp [notWS, hc]
      simp [List.dropWhile_cons, this]
  cases w with
  | nil => exact absurd rfl hw
  | cons c s =>
    have hc : ¬ isWS c = true := by
      have := hall c (by simp)
      simp [notWS] at this
      simp [this]
    rw [List.cons_append, splitW_cons_word _ hc, ← List.cons_append,
      List.takeWhile_append_of_pos hall, hzW, List.append_nil,
      List.dropWhile_append_of_pos hall, hzD]

/-- The last element survives taking a non-empty suffix by `dropWhile`. -/
theorem getLast?_dropWhile (p : Char → Bool) (y : Str)
    (h : y.dropWhile p ≠ []) : (y.dropWhile p).getLast? = y.getLast? := by
  have hsuf : y.dropWhile p <:+ y := (List.dropWhile_suffix p)
  obtain ⟨pre, hpre⟩ := hsuf
  calc (y.dropWhile p).getLast?
      = (pre ++ y.dropWhile p).getLast? := by
        rw [List.getLast?_append]
        cases hl : (y.dropWhile p).getLast? with
        | none =>
          exact absurd (List.getLast?_eq_none_iff.mp hl) h
        | some a => rfl
    _ = y.getLast? := by rw [hpre]

/-- Appending a word to a string ending in whitespace (or empty) appends
exactly that word to its word list. -/
theorem splitW_append_word {w : Str} (hw : w ≠ [])
    (hall : ∀ c ∈ w, notWS c = true) :
    ∀ (N : Nat) (y : Str), y.length ≤ N →
      (y = [] ∨ ∃ c, y.getLast? = some c ∧ isWS c = true) →
      splitW (y ++ w) = splitW y ++ [w] := by
  intro N
  induction N with
  | zero =>
    intro y hy _
    have hnil : y = [] := List.eq_nil_of_length_eq_zero (Nat.le_zero.mp hy)
    subst hnil
    rw [List.nil_append, splitW_nil, List.nil_append]
    exact splitW_word hw hall
  | succ N ih =>
    intro y hy hb
    cases y with
    | nil =>
      rw [List.nil_append, splitW_nil, List.nil_append]
      exact splitW_word hw hall
    | cons c s =>
      have hb' : s = [] ∨ ∃ c0, s.getLast? = some c0 ∧ isWS c0 = true := by
        cases s with
        | nil => exact Or.inl rfl
        | cons c1 s1 =>
          rcases hb with hcon | ⟨c0, hc0, hws⟩
          · cases hcon
          · refine Or.inr ⟨c0, ?_, hws⟩
            rw [List.getLast?_cons_cons] at hc0
            exact hc0
      by_cases hc : isWS c = true
      · rw [List.cons_append, splitW_cons_ws _ hc, splitW_cons_ws _ hc]
        exact ih s (by simpa using hy) hb'
      · -- the head is a word character; y must contain whitespace further on
        have hcW : notWS c = true := by simp [notWS, hc]
        have hlast : ∃ c0, (c :: s).getLast? = some c0 ∧ isWS c0 = true := by
          rcases hb with hcon | h
          · cases hcon
          · exact h
        obtain ⟨c0, hc0, hws0⟩ := hlast
        have hsne : s ≠ [] := by
          intro hcon
          subst hcon
          simp at hc0
          subst hc0
          exact hc hws0
        have hfull : ¬ ((c :: s).takeWhile notWS).length = (c :: s).length := by
          intro hcon
          have hself : (c :: s).takeWhile notWS = c :: s :=
            List.IsPrefix.eq_of_length (List.takeWhile_prefix notWS) hcon
          have hmem : c0 ∈ c :: s := by
            have hgl := List.getLast?_eq_getLast (c :: s) (by simp)
            rw [hgl] at hc0
            exact (Option.some.inj hc0) ▸ List.getLast_mem (l := c :: s) (by simp)
          have := List.mem_takeWhile_imp (hself.symm ▸ hmem)
          simp [notWS, hws0] at this
        have htake : ((c :: s) ++ w).takeWhile notWS = (c :: s).takeWhile notWS := by
          rw [List.takeWhile_append, if_neg hfull]
        have hdropy : (c :: s).dropWhile notWS ≠ [] := by
          intro hcon
          have hlen := congrArg List.length
            (List.takeWhile_append_dropWhile notWS (c :: s))
          rw [List.length_append, hcon] at hlen
          simp at hlen
          exact hfull hlen
        have hdrop : ((c :: s) ++ w).dropWhile notWS =
            (c :: s).dropWhile notWS ++ w := by
          rw [List.dropWhile_append,
            if_neg (by simpa [List.isEmpty_iff] using hdropy)]
        rw [List.cons_append, splitW_cons_word _ hc, ← List.cons_append,
          htake, hdrop, splitW_cons_word _ hc]
        rw [List.cons_append]
        congr 1
        have hlt : ((c :: s).dropWhile notWS).length ≤ N := by
          have h1 : ((c :: s).dropWhile notWS).length ≤ s.length := by
            have h2 : (c :: s).dropWhile notWS = s.dropWhile notWS := by
              simp [List.dropWhile_cons, hcW]
            rw [h2]
            exact (List.dropWhile_sublist notWS).length_le
          have h3 : s.length + 1 ≤ N + 1 := by simpa using hy
          omega
        refine ih _ hlt ?_
        right
        exact ⟨c0, by rw [getLast?_dropWhile notWS _ hdropy]; exact hc0, hws0⟩

/-! ## Trim lemmas -/

/-- Removal of trailing whitespace only (the second phase of `trim`). -/
def trimEnd (s : Str) : Str := (s.reverse.dropWhile isWS).reverse

/-- The definition of `trim`, phase by phase. -/
theorem trim_eq_trimEnd_dropWhile (s : Str) :
    trim s = trimEnd (s.dropWhile isWS) := rfl

/-- Splitting a string into its trailing-trimmed part and the trailing
whitespace run. -/
theorem trimEnd_decomp (x : Str) :
    ∃ t, x = trimEnd x ++ t ∧ ∀ c ∈ t, isWS c = true := by
  refine ⟨(x.reverse.takeWhile isWS).reverse, ?_, ?_⟩
  · have h := congrArg List.reverse
      (List.takeWhile_append_dropWhile isWS x.reverse)
    rw [List.reverse_append, List.reverse_reverse] at h
    exact h.symm
  · intro c hc
    exact List.mem_takeWhile_imp (List.mem_reverse.mp hc)

/-- The trailing-trimmed part is a prefix. -/
theorem trimEnd_prefix_self (x : Str) : trimEnd x <+: x := by
  unfold trimEnd
  conv_rhs => rw [← List.reverse_reverse x]
  exact List.reverse_prefix.mpr (List.dropWhile_suffix isWS)

/-- A non-empty trailing-trimmed string ends in a word character. -/
theorem trimEnd_getLast_not_ws {x : Str} (h : trimEnd x ≠ []) :
    ∃ c, (trimEnd x).getLast? = some c ∧ isWS c = false := by
  unfold trimEnd at h ⊢
  rw [List.getLast?_reverse]
  have hne : x.reverse.dropWhile isWS ≠ [] := by
    intro hcon
    rw [hcon] at h
    exact h rfl
  cases hh : (x.reverse.dropWhile isWS).head? with
  | none => exact absurd (List.head?_eq_none_iff.mp hh) hne
  | some c =>
    refine ⟨c, rfl, ?_⟩
    have hp := List.head?_dropWhile_not isWS x.reverse
    rw [hh] at hp
    simpa using hp

/-- Dropping a failing head changes nothing. -/
theorem dropWhile_eq_self_of_head {p : Char → Bool} {y : Str}
    (h : ∀ c, y.head? = some c → p c = false) : y.dropWhile p = y := by
  cases y with
  | nil => rfl
  | cons c s => simp [List.dropWhile_cons, h c rfl]

/-- A string ending in a word character needs no trailing trim. -/
theorem trimEnd_eq_self {y : Str}
    (h : ∀ c, y.getLast? = some c → isWS c = false) : trimEnd y = y := by
  unfold trimEnd
  rw [dropWhile_eq_self_of_head, List.reverse_reverse]
  intro c hc
  rw [List.head?_reverse] at hc
  exact h c hc

/-- The head of a non-empty prefix is the head of the whole. -/
theorem prefix_head?_eq {y z : Str} (h : y <+: z) (hne : y ≠ []) :
    y.head? = z.head? := by
  obtain ⟨t, rfl⟩ := h
  cases y with
  | nil => exact absurd rfl hne
  | cons c s => rfl

/-- Trimming is idempotent. -/
theorem trim_idem (x : Str) : trim (trim x) = trim x := by
  rw [trim_eq_trimEnd_dropWhile x]
  set z := x.dropWhile isWS with hz
  have hzhead : ∀ c, z.head? = some c → isWS c = false := by
    intro c hc
    have hp := List.head?_dropWhile_not isWS x
    rw [← hz, hc] at hp
    simpa using hp
  have hhead : ∀ c, (trimEnd z).head? = some c → isWS c = false := by
    intro c hc
    by_cases he : trimEnd z = []
    · rw [he] at hc; cases hc
    · rw [prefix_head?_eq (trimEnd_prefix_self z) he] at hc
      exact hzhead c hc
  rw [trim_eq_trimEnd_dropWhile, dropWhile_eq_self_of_head hhead]
  apply trimEnd_eq_self
  intro c hc
  by_cases he : trimEnd z = []
  · rw [he] at hc; cases hc
  · obtain ⟨c', hc', hws'⟩ := trimEnd_getLast_not_ws he
    rw [hc'] at hc
    cases hc
    exact hws'

/-- Trimming keeps no leading whitespace. -/
theorem trim_head_not_ws (x : Str) :
    ∀ c, (trim x).head? = some c → isWS c = false := by
  intro c hc
  rw [trim_eq_trimEnd_dropWhile] at hc
  by_cases he : trimEnd (x.dropWhile isWS) = []
  · rw [he] at hc; cases hc
  · rw [prefix_head?_eq (trimEnd_prefix_self _) he] at hc
    have hp := List.head?_dropWhile_not isWS x
    rw [hc] at hp
    simpa using hp

/-- Trimming keeps no trailing whitespace. -/
theorem trim_getLast_not_ws (x : Str) :
    ∀ c, (trim x).getLast? = some c → isWS c = false := by
  intro c hc
  rw [trim_eq_trimEnd_dropWhile] at hc
  by_cases he : trimEnd (x.dropWhile isWS) = []
  · rw [he] at hc; cases hc
  · obtain ⟨c', hc', hws'⟩ := trimEnd_getLast_not_ws he
    rw [hc'] at hc
    cases hc
    exact hws'

/-- Trimming does not change the word list. -/
theorem splitW_trim (x : Str) : splitW (trim x) = splitW x := by
  rw [trim_eq_trimEnd_dropWhile]
  obtain ⟨t, hdec, ht⟩ := trimEnd_decomp (x.dropWhile isWS)
  have h1 : splitW (x.dropWhile isWS) = splitW (trimEnd (x.dropWhile isWS)) := by
    conv_lhs => rw [hdec]
    exact splitW_append_ws ht _ _ (le_refl _)
  have h2 : splitW x = splitW (x.dropWhile isWS) := by
    conv_lhs => rw [← List.takeWhile_append_dropWhile isWS x]
    exact splitW_ws_append _ (fun c hc => List.mem_takeWhile_imp hc)
  rw [h2, h1]

/-! ## Characterisation of `CommandArguments.next` -/

/-- The negation of the word predicate is the whitespace predicate. -/
theorem not_notWS : (fun c => !(notWS c)) = isWS := by
  funext c
  simp [notWS]

/-- A list is as long as its two `takeWhile`/`dropWhile` parts together. -/
theorem length_takeWhile_add_dropWhile (p : Char → Bool) (l : Str) :
    l.length = (l.takeWhile p).length + (l.dropWhile p).length := by
  conv_lhs => rw [← List.takeWhile_append_dropWhile p l]
  exact List.length_append ..

/-- The slice of a `CommandArguments` as a dropped-from-taken segment. -/
theorem slice_eq_take_drop (s : Str) (n m : Nat) :
    CommandArguments.slice ⟨s, n, m⟩ = (s.take m).drop n := by
  simp only [CommandArguments.slice, List.drop_take]

/-- `next` on an all-whitespace (or empty) remaining slice: no word, state
unchanged. -/
theorem next_gen_none {s : Str} {n m : Nat}
    (h : ((s.take m).drop n).dropWhile isWS = []) :
    CommandArguments.next ⟨s, n, m⟩ = (⟨s, n, m⟩, none) := by
  have hsl : CommandArguments.slice ⟨s, n, m⟩ = (s.take m).drop n :=
    slice_eq_take_drop s n m
  have hlen := length_takeWhile_add_dropWhile isWS ((s.take m).drop n)
  rw [h] at hlen
  have hcond : ¬ ((CommandArguments.slice ⟨s, n, m⟩).findIdx notWS <
      (CommandArguments.slice ⟨s, n, m⟩).length) := by
    rw [findIdx_eq_length_takeWhile, not_notWS, hsl]
    simp only [List.length_nil] at hlen
    omega
  unfold CommandArguments.next
  rw [if_neg hcond]

/-- `next` on a slice containing a word: skip the leading whitespace run,
return the first word, move `start` past it. -/
theorem next_gen_some {s : Str} {n m : Nat}
    (h : ((s.take m).drop n).dropWhile isWS ≠ []) :
    CommandArguments.next ⟨s, n, m⟩ =
      (⟨s, n + (((s.take m).drop n).takeWhile isWS).length +
            ((((s.take m).drop n).dropWhile isWS).takeWhile notWS).length, m⟩,
       some ((((s.take m).drop n).dropWhile isWS).takeWhile notWS)) := by
  set u := s.take m with hu
  set sl := u.drop n with hsldef
  set a := sl.takeWhile isWS with ha
  set rest := sl.dropWhile isWS with hrest
  set w := rest.takeWhile notWS with hw
  have hsl : CommandArguments.slice ⟨s, n, m⟩ = sl := slice_eq_take_drop s n m
  have hi : (CommandArguments.slice ⟨s, n, m⟩).findIdx notWS = a.length := by
    rw [findIdx_eq_length_takeWhile, not_notWS, hsl]
  have hlen := length_takeWhile_add_dropWhile isWS sl
  rw [← ha, ← hrest] at hlen
  have hrpos : 0 < rest.length := List.length_pos.mpr h
  have hcond : (CommandArguments.slice ⟨s, n, m⟩).findIdx notWS <
      (CommandArguments.slice ⟨s, n, m⟩).length := by
    rw [hi, hsl]
    omega
  -- the sub-slice from the word start to the stop is exactly `rest`
  have hsub : (s.drop (n + a.length)).take (m - (n + a.length)) = rest := by
    have h1 : (s.take m).drop (n + a.length) = (s.drop (n + a.length)).take (m - (n + a.length)) :=
      List.drop_take ..
    rw [← h1, ← hu]
    have h2 : u.drop (n + a.length) = (u.drop n).drop a.length := by
      rw [List.drop_drop]
    rw [h2, ← hsldef, ha, drop_length_takeWhile, ← hrest]
  -- the word is a prefix of the drop at the word start
  have hwpre : w <+: s.drop (n + a.length) := by
    refine List.IsPrefix.trans ?_
      (List.take_prefix (m - (n + a.length)) (s.drop (n + a.length)))
    rw [hsub]
    exact List.takeWhile_prefix _
  have hword : (s.drop (n + a.length)).take w.length = w :=
    (List.prefix_iff_eq_take.mp hwpre).symm
  have hwne : w ≠ [] := by
    cases hrr : rest with
    | nil => exact absurd hrr h
    | cons c t =>
      have hcnws : isWS c = false := by
        have hp := List.head?_dropWhile_not isWS sl
        rw [← hrest, hrr] at hp
        simpa using hp
      rw [hw, hrr, List.takeWhile_cons]
      simp [notWS, hcnws]
  unfold CommandArguments.next
  rw [if_pos hcond]
  simp only [hi]
  rw [Prod.mk.injEq]
  constructor
  · have hfi : CommandArguments.findIndex
        ((s.drop (n + a.length)).take (m - (n + a.length))) isWS = w.length := by
      unfold CommandArguments.findIndex
      rw [hsub, findIdx_eq_length_takeWhile]
      congr 1
    rw [hfi]
  · have hfi : CommandArguments.findIndex
        ((s.drop (n + a.length)).take (m - (n + a.length))) isWS = w.length := by
      unfold CommandArguments.findIndex
      rw [hsub, findIdx_eq_length_takeWhile]
      congr 1
    rw [hfi]
    have harith : n + a.length + w.length - (n + a.length) = w.length := by omega
    rw [harith, hword]
    unfold CommandArguments.noneIfEmpty
    rw [if_neg (by simpa [List.isEmpty_iff] using hwne)]

/-- A value of `getLast?` is a member. -/
theorem getLast?_mem_self {l : Str} {c : Char} (h : l.getLast? = some c) :
    c ∈ l := by
  have hmem : c ∈ l.getLast? := by rw [h]; rfl
  obtain ⟨hne, heq⟩ := List.mem_getLast?_eq_getLast hmem
  exact heq ▸ List.getLast_mem hne

/-- The forward word-boundary invariant of a `CommandArguments` iterator on
text `u` with consumption point `n`: either nothing was consumed, or the
consumed part ends in a word character and the remaining part starts with
whitespace (if anything remains). -/
def InvF (u : Str) (n : Nat) : Prop :=
  n = 0 ∨ ((∃ c, (u.take n).getLast? = some c ∧ isWS c = false) ∧
           (∀ c, (u.drop n).head? = some c → isWS c = true))

/-- A `next` step on a slice with no remaining word: `none`, state
unchanged. -/
theorem next_words_nil {s : Str} {n m : Nat}
    (h : splitW ((s.take m).drop n) = []) :
    CommandArguments.next ⟨s, n, m⟩ = (⟨s, n, m⟩, none) := by
  apply next_gen_none
  rw [List.dropWhile_eq_nil_iff]
  exact (splitW_eq_nil_iff _).mp h

/-- A `next` step on a slice whose word list is `w :: rest`: the word `w` is
returned, the new consumption point keeps the invariant, the consumed text
gains exactly the word `w`, and the remaining text's words are `rest`. -/
theorem next_words_cons {s : Str} {n m : Nat} {w : Str} {rest : List Str}
    (hm : m ≤ s.length) (hn : n ≤ m) (hinv : InvF (s.take m) n)
    (h : splitW ((s.take m).drop n) = w :: rest) :
    ∃ n', CommandArguments.next ⟨s, n, m⟩ = (⟨s, n', m⟩, some w) ∧
      n ≤ n' ∧ n' ≤ m ∧ InvF (s.take m) n' ∧
      splitW ((s.take m).take n') = splitW ((s.take m).take n) ++ [w] ∧
      splitW ((s.take m).drop n') = rest := by
  set u := s.take m with hu
  set sl := u.drop n with hsldef
  set a := sl.takeWhile isWS with ha
  set rest₀ := sl.dropWhile isWS with hrest₀
  set w₀ := rest₀.takeWhile notWS with hw₀
  have hulen : u.length = m := by rw [hu, List.length_take]; omega
  have hrne : rest₀ ≠ [] := by
    intro hcon
    have hall : ∀ c ∈ sl, isWS c = true := by
      rw [← List.dropWhile_eq_nil_iff (p := isWS)]
      exact hcon
    rw [(splitW_eq_nil_iff sl).mpr hall] at h
    cases h
  -- decompose the word list of the slice
  have haws : ∀ c ∈ a, isWS c = true := fun c hc => List.mem_takeWhile_imp hc
  have hheadr : ∀ c, rest₀.head? = some c → isWS c = false := by
    intro c hc
    have hp := List.head?_dropWhile_not isWS sl
    rw [← hrest₀, hc] at hp
    simpa using hp
  have hsplitsl : splitW sl = w₀ :: splitW (rest₀.dropWhile notWS) := by
    have h1 : splitW sl = splitW rest₀ := by
      conv_lhs => rw [← List.takeWhile_append_dropWhile isWS sl]
      exact splitW_ws_append _ haws
    cases hrr : rest₀ with
    | nil => exact absurd hrr hrne
    | cons c t =>
      have hcns : isWS c = false := hheadr c (by rw [hrr]; rfl)
      rw [h1, hrr, splitW_cons_word t (by simp [hcns])]
      rw [hw₀, hrr]
  have hw : w₀ = w ∧ splitW (rest₀.dropWhile notWS) = rest := by
    rw [h] at hsplitsl
    exact ⟨(List.cons.injEq .. |>.mp hsplitsl.symm).1,
           (List.cons.injEq .. |>.mp hsplitsl.symm).2⟩
  have hwne : w₀ ≠ [] := by
    cases hrr : rest₀ with
    | nil => exact absurd hrr hrne
    | cons c t =>
      have hcns : isWS c = false := hheadr c (by rw [hrr]; rfl)
      rw [hw₀, hrr, List.takeWhile_cons]
      simp [notWS, hcns]
  have hwall : ∀ c ∈ w₀, notWS c = true := fun c hc => List.mem_takeWhile_imp hc
  have hlensl := length_takeWhile_add_dropWhile isWS sl
  rw [← ha, ← hrest₀] at hlensl
  have hwlen : w₀.length ≤ rest₀.length := (List.takeWhile_prefix notWS).length_le
  have hsllen : sl.length = m - n := by rw [hsldef, List.length_drop, hulen]
  -- decomposition of the taken and dropped parts at the new point
  have htake_a : sl.take a.length = a :=
    (List.prefix_iff_eq_take.mp (ha ▸ List.takeWhile_prefix isWS)).symm
  have hdrop_a : sl.drop a.length = rest₀ := by
    rw [ha, drop_length_takeWhile, ← hrest₀]
  have htake_w : rest₀.take w₀.length = w₀ :=
    (List.prefix_iff_eq_take.mp (hw₀ ▸ List.takeWhile_prefix notWS)).symm
  have hdec_take : u.take (n + a.length + w₀.length) = (u.take n ++ a) ++ w₀ := by
    rw [Nat.add_assoc, List.take_add, ← hsldef, List.take_add, htake_a, hdrop_a,
      htake_w, List.append_assoc]
  have hdec_drop : u.drop (n + a.length + w₀.length) = rest₀.dropWhile notWS := by
    have h1 : u.drop (n + a.length + w₀.length) = ((u.drop n).drop a.length).drop w₀.length := by
      rw [List.drop_drop, List.drop_drop]
      congr 1
      omega
    rw [h1, ← hsldef, hdrop_a, hw₀, drop_length_takeWhile]
  have hbound : (u.take n ++ a) = [] ∨
      ∃ c, (u.take n ++ a).getLast? = some c ∧ isWS c = true := by
    by_cases haz : a = []
    · rcases hinv with h0 | ⟨⟨c, hc, hcws⟩, hhead⟩
      · left
        simp [h0, haz]
      · -- with something consumed, the remaining slice starts with whitespace,
        -- so the whitespace run `a` cannot be empty
        exfalso
        have hsl_eq : sl = rest₀ := by
          conv_lhs => rw [← List.takeWhile_append_dropWhile isWS sl]
          rw [← ha, haz, List.nil_append, hrest₀]
        cases hrr : rest₀ with
        | nil => exact hrne hrr
        | cons c₀ t =>
          have h1 : (u.drop n).head? = some c₀ := by
            rw [← hsldef, hsl_eq, hrr]
            rfl
          have h2 := hhead c₀ h1
          have h3 := hheadr c₀ (by rw [hrr]; rfl)
          rw [h2] at h3
          cases h3
    · right
      cases hga : a.getLast? with
      | none => exact absurd (List.getLast?_eq_none_iff.mp hga) haz
      | some c =>
        refine ⟨c, ?_, haws c (getLast?_mem_self hga)⟩
        rw [List.getLast?_append_of_ne_nil _ haz, hga]
  refine ⟨n + a.length + w₀.length, ?_, by omega, by omega, ?_, ?_, ?_⟩
  · rw [← hw.1]
    exact next_gen_some hrne
  -- the invariant at the new point
  · right
    constructor
    · cases hgw : w₀.getLast? with
      | none => exact absurd (List.getLast?_eq_none_iff.mp hgw) hwne
      | some c =>
        refine ⟨c, ?_, ?_⟩
        · rw [hdec_take, List.getLast?_append_of_ne_nil _ hwne, hgw]
        · have := hwall c (getLast?_mem_self hgw)
          simpa [notWS] using this
    · intro c hc
      rw [hdec_drop] at hc
      have hp := List.head?_dropWhile_not notWS rest₀
      rw [hc] at hp
      simpa [notWS] using hp
  -- the consumed text gains exactly the word
  · rw [hdec_take, hw.1,
      splitW_append_word (hw.1 ▸ hwne) (fun c hc => hwall c (hw.1 ▸ hc))
        (u.take n ++ a).length _ (le_refl _) hbound,
      splitW_append_ws haws (u.take n).length _ (le_refl _)]
  -- the remaining text's words
  · rw [hdec_drop]
    exact hw.2

/-! ## Characterisation of `CommandArguments.nextBack` -/

/-- `nextBack` on a fresh-start iterator whose text up to `stop` is all
whitespace (or empty): no word, state unchanged. -/
theorem nextBack_gen_none {s : Str} {m : Nat}
    (h : (s.take m).reverse.dropWhile isWS = []) :
    CommandArguments.nextBack ⟨s, 0, m⟩ = (⟨s, 0, m⟩, none) := by
  have hsl0 : CommandArguments.slice ⟨s, 0, m⟩ = s.take m := rfl
  have hlen := length_takeWhile_add_dropWhile isWS (s.take m).reverse
  rw [h] at hlen
  have hcond : ¬ ((CommandArguments.slice ⟨s, 0, m⟩).reverse.findIdx notWS <
      (CommandArguments.slice ⟨s, 0, m⟩).length) := by
    rw [findIdx_eq_length_takeWhile, not_notWS, hsl0]
    simp only [List.length_nil] at hlen
    rw [← List.length_reverse (s.take m)]
    omega
  unfold CommandArguments.nextBack
  rw [if_neg hcond]

/-- `nextBack` on a fresh-start iterator whose text up to `stop` contains a
word: the trailing whitespace run is skipped, the last word is returned, and
`stop` moves to the start of that word. -/
theorem nextBack_gen_some {s : Str} {m : Nat} (hm : m ≤ s.length)
    (h : (s.take m).reverse.dropWhile isWS ≠ []) :
    CommandArguments.nextBack ⟨s, 0, m⟩ =
      (⟨s, 0, m - ((s.take m).reverse.takeWhile isWS).length
              - (((s.take m).reverse.dropWhile isWS).takeWhile notWS).length⟩,
       some ((((s.take m).reverse.dropWhile isWS).takeWhile notWS).reverse)) := by
  set sl := s.take m with hsldef
  set R := sl.reverse with hRdef
  set aR := R.takeWhile isWS with haR
  set restR := R.dropWhile isWS with hrestR
  set wR := restR.takeWhile notWS with hwR
  have hslL : sl.length = m := by rw [hsldef, List.length_take]; omega
  have hRL : R.length = m := by rw [hRdef, List.length_reverse, hslL]
  have hlenR := length_takeWhile_add_dropWhile isWS R
  rw [← haR, ← hrestR] at hlenR
  have hrpos : 0 < restR.length := List.length_pos.mpr h
  have hwlen : wR.length ≤ restR.length := (List.takeWhile_prefix notWS).length_le
  have hwne : wR ≠ [] := by
    cases hrr : restR with
    | nil => exact absurd hrr h
    | cons c t =>
      have hcnws : isWS c = false := by
        have hp := List.head?_dropWhile_not isWS R
        rw [← hrestR, hrr] at hp
        simpa using hp
      rw [hwR, hrr, List.takeWhile_cons]
      simp [notWS, hcnws]
  have hsl0 : CommandArguments.slice ⟨s, 0, m⟩ = sl := rfl
  have hj : (CommandArguments.slice ⟨s, 0, m⟩).reverse.findIdx notWS = aR.length := by
    rw [findIdx_eq_length_takeWhile, not_notWS, hsl0, ← hRdef, ← haR]
  have hcond : (CommandArguments.slice ⟨s, 0, m⟩).reverse.findIdx notWS <
      (CommandArguments.slice ⟨s, 0, m⟩).length := by
    rw [hj, hsl0]
    omega
  have he : 0 + ((CommandArguments.slice ⟨s, 0, m⟩).length - 1 -
      (CommandArguments.slice ⟨s, 0, m⟩).reverse.findIdx notWS) + 1 = m - aR.length := by
    rw [hj, hsl0]
    omega
  -- the reversed prefix up to the start of the trailing whitespace run
  have htake_e : s.take (m - aR.length) = sl.take (m - aR.length) := by
    rw [hsldef, List.take_take, min_eq_left (by omega)]
  have hdroplen : (sl.drop (m - aR.length)).length = aR.length := by
    rw [List.length_drop, hslL]
    omega
  have hsubrev : (s.take (m - aR.length)).reverse = restR := by
    have h3 : R = (sl.drop (m - aR.length)).reverse ++ (sl.take (m - aR.length)).reverse := by
      rw [hRdef]
      conv_lhs => rw [← List.take_append_drop (m - aR.length) sl]
      rw [List.reverse_append]
    have h4 : R = aR ++ restR := by
      rw [haR, hrestR, List.takeWhile_append_dropWhile]
    have h5 := h3.symm.trans h4
    have h6 := List.append_inj h5 (by
      rw [List.length_reverse, hdroplen])
    rw [htake_e]
    exact h6.2
  -- the word is the reversed tail of the reversed prefix
  have hrestR' : restR = wR ++ restR.dropWhile notWS := by
    rw [hwR, List.takeWhile_append_dropWhile]
  have hrestR'len : (restR.dropWhile notWS).length = m - aR.length - wR.length := by
    have := length_takeWhile_add_dropWhile notWS restR
    rw [← hwR] at this
    have hR2 : restR.length = m - aR.length := by omega
    omega
  have hsub_dec : s.take (m - aR.length) =
      (restR.dropWhile notWS).reverse ++ wR.reverse := by
    have h7 : s.take (m - aR.length) = (s.take (m - aR.length)).reverse.reverse := by
      rw [List.reverse_reverse]
    rw [h7, hsubrev]
    conv_lhs => rw [hrestR']
    rw [List.reverse_append]
  have hsub_split : s.take (m - aR.length) =
      s.take (m - aR.length - wR.length) ++
        (s.drop (m - aR.length - wR.length)).take
          (m - aR.length - (m - aR.length - wR.length)) := by
    conv_lhs => rw [← List.take_append_drop (m - aR.length - wR.length)
      (s.take (m - aR.length))]
    rw [List.take_take, min_eq_left (by omega), List.drop_take]
  have htklen : (s.take (m - aR.length - wR.length)).length = m - aR.length - wR.length := by
    rw [List.length_take]
    omega
  have hsplit2 := List.append_inj (hsub_split.symm.trans hsub_dec) (by
    rw [htklen, List.length_reverse, hrestR'len])
  unfold CommandArguments.nextBack
  rw [if_pos hcond]
  rw [he]
  simp only [List.drop_zero, Nat.sub_zero]
  have hidx : CommandArguments.rfindIndexPlusOne (s.take (m - aR.length)) isWS =
      m - aR.length - wR.length := by
    unfold CommandArguments.rfindIndexPlusOne
    have hnot : (fun c => !(isWS c)) = notWS := rfl
    rw [hnot, hsubrev, ← hwR, List.length_take, min_eq_left (by omega)]
  rw [hidx]
  rw [Prod.mk.injEq]
  refine ⟨rfl, ?_⟩
  rw [hsplit2.2]
  unfold CommandArguments.noneIfEmpty
  rw [if_neg (by
    simp only [List.isEmpty_iff]
    intro hcon
    exact hwne (by simpa using congrArg List.reverse hcon))]

/-- The backward word-boundary invariant of a fresh-start iterator on `s`
with range end `m`: nothing consumed from the end, everything consumed, or
the cut sits exactly at the start of a word. -/
def InvB (s : Str) (m : Nat) : Prop :=
  m = s.length ∨ m = 0 ∨
    ((∀ c, (s.drop m).head? = some c → isWS c = false) ∧
     (∃ c, (s.take m).getLast? = some c ∧ isWS c = true))

/-- A `nextBack` step with no remaining word: `none`, state unchanged. -/
theorem nextBack_words_nil {s : Str} {m : Nat}
    (h : splitW (s.take m) = []) :
    CommandArguments.nextBack ⟨s, 0, m⟩ = (⟨s, 0, m⟩, none) := by
  apply nextBack_gen_none
  rw [List.dropWhile_eq_nil_iff]
  intro c hc
  exact (splitW_eq_nil_iff _).mp h c (List.mem_reverse.mp hc)

/-- A `nextBack` step on a range whose word list is `ws ++ [w]`: the word
`w` is returned, the new range end keeps the invariant, the remaining text's
words become `ws`, and the consumed-from-the-end text gains exactly `w` at
the front. -/
theorem nextBack_words_concat {s : Str} {m : Nat} {ws : List Str} {w : Str}
    (hm : m ≤ s.length) (hinv : InvB s m)
    (h : splitW (s.take m) = ws ++ [w]) :
    ∃ m', CommandArguments.nextBack ⟨s, 0, m⟩ = (⟨s, 0, m'⟩, some w) ∧
      m' ≤ m ∧ InvB s m' ∧
      splitW (s.take m') = ws ∧
      splitW (s.drop m') = w :: splitW (s.drop m) := by
  set u := s.take m with hu
  set R := u.reverse with hRdef
  set aR := R.takeWhile isWS with haR
  set restR := R.dropWhile isWS with hrestR
  set wR := restR.takeWhile notWS with hwR
  set restR' := restR.dropWhile notWS with hrestR'
  have huL : u.length = m := by rw [hu, List.length_take]; omega
  have hRL : R.length = m := by rw [hRdef, List.length_reverse, huL]
  have hrne : restR ≠ [] := by
    intro hcon
    have hallR : ∀ c ∈ R, isWS c = true := by
      rw [← List.dropWhile_eq_nil_iff (p := isWS)]
      exact hcon
    have hallu : ∀ c ∈ u, isWS c = true := fun c hc =>
      hallR c (by rw [hRdef]; exact List.mem_reverse.mpr hc)
    rw [(splitW_eq_nil_iff u).mpr hallu] at h
    exact absurd h.symm (List.append_ne_nil_of_right_ne_nil ws (by simp))
  have hgen := nextBack_gen_some hm hrne
  have hlenR := length_takeWhile_add_dropWhile isWS R
  rw [← haR, ← hrestR] at hlenR
  have hlenrest := length_takeWhile_add_dropWhile notWS restR
  rw [← hwR, ← hrestR'] at hlenrest
  have hheadr : ∀ c, restR.head? = some c → isWS c = false := by
    intro c hc
    have hp := List.head?_dropWhile_not isWS R
    rw [← hrestR, hc] at hp
    simpa using hp
  have hwne : wR ≠ [] := by
    cases hrr : restR with
    | nil => exact absurd hrr hrne
    | cons c t =>
      have hcnws : isWS c = false := hheadr c (by rw [hrr]; rfl)
      rw [hwR, hrr, List.takeWhile_cons]
      simp [notWS, hcnws]
  have hwall : ∀ c ∈ wR, notWS c = true := fun c hc => List.mem_takeWhile_imp hc
  have haws : ∀ c ∈ aR.reverse, isWS c = true := fun c hc =>
    List.mem_takeWhile_imp (List.mem_reverse.mp hc)
  -- decomposition of `u` into kept text, last word and trailing whitespace
  have hudec : u = (restR'.reverse ++ wR.reverse) ++ aR.reverse := by
    have h1 : u = R.reverse := by rw [hRdef, List.reverse_reverse]
    have h2 : R = aR ++ (wR ++ restR') := by
      rw [haR]
      conv_lhs => rw [← List.takeWhile_append_dropWhile isWS R]
      congr 1
      rw [hrestR', hwR, List.takeWhile_append_dropWhile, hrestR]
    rw [h1, h2]
    simp [List.reverse_append]
  set m' := m - aR.length - wR.length with hm'
  have hm'len : restR'.length = m' := by omega
  have htakem' : s.take m' = restR'.reverse := by
    have hpre : restR'.reverse <+: u := ⟨wR.reverse ++ aR.reverse, by
      rw [← List.append_assoc]
      exact hudec.symm⟩
    have := List.prefix_iff_eq_take.mp hpre
    rw [List.length_reverse, hm'len] at this
    rw [hu] at this
    rw [List.take_take, min_eq_left (by omega)] at this
    exact this.symm
  have hdropm' : s.drop m' = wR.reverse ++ (aR.reverse ++ s.drop m) := by
    have hs : s = restR'.reverse ++ (wR.reverse ++ (aR.reverse ++ s.drop m)) := by
      conv_lhs => rw [← List.take_append_drop m s, ← hu, hudec]
      simp [List.append_assoc]
    conv_lhs => rw [hs]
    have hlen : restR'.reverse.length = m' := by rw [List.length_reverse, hm'len]
    rw [← hlen, List.drop_left]
  -- the boundary after the removed word
  have hbound : aR.reverse ++ s.drop m = [] ∨
      ∃ c rest, aR.reverse ++ s.drop m = c :: rest ∧ isWS c = true := by
    by_cases haz : aR = []
    · rcases hinv with hml | hm0 | ⟨hhead, c, hc, hcws⟩
      · left
        rw [haz, List.drop_eq_nil_of_le (by omega)]
        rfl
      · exfalso
        have : R = [] := by rw [hRdef, hu, hm0]; rfl
        rw [hrestR, this] at hrne
        exact hrne rfl
      · exfalso
        have hheadR : R.head? = some c := by
          rw [hRdef, List.head?_reverse, hu]
          exact hc
        have : aR ≠ [] := by
          cases hRR : R with
          | nil => rw [hRR] at hheadR; cases hheadR
          | cons c₀ t =>
            have : c₀ = c := by rw [hRR] at hheadR; simpa using hheadR
            rw [haR, hRR, List.takeWhile_cons, this, hcws]
            simp
        exact this haz
    · right
      cases hra : aR.reverse with
      | nil => exact absurd (by simpa using congrArg List.reverse hra) haz
      | cons c t =>
        exact ⟨c, t ++ s.drop m, by simp,
          haws c (by rw [hra]; exact List.mem_cons_self ..)⟩
  -- the word list of `u` ends in the reversed last word
  have hsplitu : splitW u = splitW restR'.reverse ++ [wR.reverse] := by
    have hwsrev : ∀ c ∈ wR.reverse, notWS c = true := fun c hc =>
      hwall c (List.mem_reverse.mp hc)
    have hwrevne : wR.reverse ≠ [] := by
      intro hcon
      exact hwne (by simpa using congrArg List.reverse hcon)
    have hbound' : restR'.reverse = [] ∨
        ∃ c, restR'.reverse.getLast? = some c ∧ isWS c = true := by
      cases hrr : restR' with
      | nil => left; simp
      | cons c t =>
        right
        refine ⟨c, ?_, ?_⟩
        · rw [List.getLast?_reverse]
          rfl
        · have hp := List.head?_dropWhile_not notWS restR
          rw [← hrestR', hrr] at hp
          simpa [notWS] using hp
    conv_lhs => rw [hudec]
    rw [splitW_append_ws haws (restR'.reverse ++ wR.reverse).length _ (le_refl _),
      splitW_append_word hwrevne hwsrev restR'.reverse.length _ (le_refl _) hbound']
  have hkey : splitW restR'.reverse = ws ∧ wR.reverse = w := by
    rw [hu] at hsplitu
    rw [h] at hsplitu
    have := List.append_inj' hsplitu.symm (by simp)
    exact ⟨this.1, by simpa using this.2⟩
  refine ⟨m', ?_, by omega, ?_, ?_, ?_⟩
  · rw [hgen, ← hkey.2]
  · -- the invariant at the new range end
    by_cases hz : m' = 0
    · right; left; exact hz
    · right; right
      have hrne' : restR' ≠ [] := by
        intro hcon
        rw [hcon] at hm'len
        exact hz (by simpa using hm'len.symm)
      constructor
      · intro c hc
        rw [hdropm'] at hc
        have hwrevne : wR.reverse ≠ [] := by
          intro hcon
          exact hwne (by simpa using congrArg List.reverse hcon)
        rw [List.head?_append_of_ne_nil _ hwrevne] at hc
        have hcg : wR.getLast? = some c := by rw [← List.head?_reverse, hc]
        have := hwall c (getLast?_mem_self hcg)
        simpa [notWS] using this
      · cases hrr : restR' with
        | nil => exact absurd hrr hrne'
        | cons c t =>
          refine ⟨c, ?_, ?_⟩
          · rw [htakem', List.getLast?_reverse, hrr]
            rfl
          · have hp := List.head?_dropWhile_not notWS restR
            rw [← hrestR', hrr] at hp
            simpa [notWS] using hp
  · rw [htakem']
    exact hkey.1
  · rw [hdropm', hkey.2.symm]
    rw [splitW_word_cons _ (by intro hcon; exact hwne (by simpa using congrArg List.reverse hcon))
        (fun c hc => hwall c (List.mem_reverse.mp hc)) hbound]
    rw [splitW_ws_append _ haws]

/-! ## Iterated splitting and the consumed-text round trip -/

/-- `k` forward `next()` calls, collecting the returned words in call
order. -/
def iterNext : CommandArguments → Nat → CommandArguments × List Str
  | ca, 0 => (ca, [])
  | ca, k + 1 =>
    match ca.next with
    | (ca', some w) =>
      let r := iterNext ca' k
      (r.1, w :: r.2)
    | (ca', none) => iterNext ca' k

/-- `k` backward `next_back()` calls, collecting the returned words in call
order. -/
def iterNextBack : CommandArguments → Nat → CommandArguments × List Str
  | ca, 0 => (ca, [])
  | ca, k + 1 =>
    match ca.nextBack with
    | (ca', some w) =>
      let r := iterNextBack ca' k
      (r.1, w :: r.2)
    | (ca', none) => iterNextBack ca' k

/-- `asStr` of a fresh iterator is the trimmed text. -/
theorem asStr_ofStr (y : Str) : (CommandArguments.ofStr y).asStr = trim y := by
  unfold CommandArguments.asStr CommandArguments.ofStr CommandArguments.slice
  simp

/-- `dropWhile` maps prefixes to prefixes. -/
theorem dropWhile_prefix_mono {p : Char → Bool} {y x : Str} (h : y <+: x) :
    y.dropWhile p <+: x.dropWhile p := by
  obtain ⟨t, rfl⟩ := h
  rw [List.dropWhile_append]
  split
  · rename_i hc
    simp only [List.isEmpty_iff] at hc
    rw [hc]
    exact List.nil_prefix ..
  · exact List.prefix_append ..

/-- `trimEnd` maps suffixes to suffixes. -/
theorem trimEnd_suffix_mono {y x : Str} (h : y <:+ x) :
    trimEnd y <:+ trimEnd x := by
  unfold trimEnd
  exact List.reverse_suffix.mpr (dropWhile_prefix_mono (List.reverse_prefix.mpr h))

/-- A string ending in a word character loses only its leading whitespace
under `trim`. -/
theorem trim_of_getLast_not_ws {y : Str} {c : Char}
    (hc : y.getLast? = some c) (hcws : isWS c = false) :
    trim y = y.dropWhile isWS := by
  rw [trim_eq_trimEnd_dropWhile]
  by_cases hd : y.dropWhile isWS = []
  · rw [hd]
    rfl
  · apply trimEnd_eq_self
    intro c' hc'
    rw [getLast?_dropWhile isWS y hd, hc] at hc'
    cases hc'
    exact hcws

/-- A prefix that ends in a word character is a prefix of the
trailing-trimmed whole. -/
theorem prefix_trimEnd_of_getLast_not_ws {p q : Str} (hpre : p <+: q)
    (hlast : ∀ c, p.getLast? = some c → isWS c = false) :
    p <+: trimEnd q := by
  obtain ⟨t, hdec, htws⟩ := trimEnd_decomp q
  by_cases hle : p.length ≤ (trimEnd q).length
  · exact List.prefix_of_prefix_length_le hpre (trimEnd_prefix_self q) hle
  · exfalso
    have h2 : trimEnd q <+: p :=
      List.prefix_of_prefix_length_le (trimEnd_prefix_self q) hpre (by omega)
    obtain ⟨r, hr⟩ := h2
    obtain ⟨u₀, hu₀⟩ := hpre
    have hrt : r ++ u₀ = t := by
      have h3 : trimEnd q ++ (r ++ u₀) = trimEnd q ++ t := by
        rw [← List.append_assoc, hr, hu₀, ← hdec]
      exact List.append_cancel_left h3
    have hrne : r ≠ [] := by
      intro hcon
      rw [hcon, List.append_nil] at hr
      rw [← hr] at hle
      omega
    cases hgr : r.getLast? with
    | none => exact hrne (List.getLast?_eq_none_iff.mp hgr)
    | some c =>
      have hgp : p.getLast? = some c := by
        rw [← hr, List.getLast?_append_of_ne_nil _ hrne, hgr]
      have hcmem : c ∈ t := hrt ▸ List.mem_append_left u₀ (getLast?_mem_self hgr)
      have h1 := hlast c hgp
      have h2 := htws c hcmem
      rw [h1] at h2
      cases h2

/-- Under the forward invariant, the trimmed consumed text is a prefix of
the trimmed input. -/
theorem trim_take_prefix_of_invF {s : Str} {n : Nat} (hinv : InvF s n) :
    trim (s.take n) <+: trim s := by
  rcases hinv with h0 | ⟨⟨c, hc, hcws⟩, _⟩
  · rw [h0]
    exact List.nil_prefix ..
  · rw [trim_of_getLast_not_ws hc hcws, trim_eq_trimEnd_dropWhile]
    apply prefix_trimEnd_of_getLast_not_ws
      (dropWhile_prefix_mono (List.take_prefix n s))
    intro c' hc'
    by_cases hd : (s.take n).dropWhile isWS = []
    · rw [hd] at hc'
      cases hc'
    · rw [getLast?_dropWhile isWS _ hd, hc] at hc'
      cases hc'
      exact hcws

/-- Under the backward invariant, the trimmed remaining text is a suffix of
the trimmed input. -/
theorem trim_drop_suffix_of_invB {s : Str} {m : Nat} (hinv : InvB s m) :
    trim (s.drop m) <:+ trim s := by
  rcases hinv with hml | hm0 | ⟨hhead, _⟩
  · rw [hml, List.drop_length]
    exact List.nil_suffix ..
  · rw [hm0, List.drop_zero]
  · have hself : (s.drop m).dropWhile isWS = s.drop m :=
      dropWhile_eq_self_of_head hhead
    have htr : trim (s.drop m) = trimEnd (s.drop m) := by
      rw [trim_eq_trimEnd_dropWhile, hself]
    -- the cut point is past the leading whitespace run
    have hl : (s.takeWhile isWS).length ≤ m := by
      by_contra hcon
      push_neg at hcon
      have hmlen : m < s.length :=
        lt_of_lt_of_le hcon (List.takeWhile_prefix isWS).length_le
      have hsm : s[m]? = (s.takeWhile isWS)[m]? := by
        rw [List.prefix_iff_eq_take.mp (List.takeWhile_prefix isWS),
          List.getElem?_take]
        rw [if_pos hcon]
      cases hg : (s.takeWhile isWS)[m]? with
      | none =>
        rw [hg] at hsm
        rw [List.getElem?_eq_none_iff] at hsm
        omega
      | some c =>
        have hcmem : c ∈ s.takeWhile isWS := List.getElem?_mem hg
        have hws : isWS c = true := List.mem_takeWhile_imp hcmem
        have hhd : (s.drop m).head? = some c := by
          rw [List.head?_drop, hsm, hg]
        rw [hhead c hhd] at hws
        cases hws
    have hsuf : s.drop m <:+ s.dropWhile isWS := by
      have h1 : s.dropWhile isWS = s.drop (s.takeWhile isWS).length :=
        (drop_length_takeWhile isWS s).symm
      have h2 : (s.drop (s.takeWhile isWS).length).drop
          (m - (s.takeWhile isWS).length) = s.drop m := by
        rw [List.drop_drop]
        congr 1
        omega
      rw [h1, ← h2]
      exact List.drop_suffix ..
    rw [htr, trim_eq_trimEnd_dropWhile]
    exact trimEnd_suffix_mono hsuf

/-- Invariant of `k` forward `next()` calls: the collected words are the
first `k` words of the remaining text, and the consumed text grows by
exactly those words. -/
theorem iterNext_spec (k : Nat) : ∀ (s : Str) (n m : Nat), m ≤ s.length → n ≤ m →
    InvF (s.take m) n →
    ∃ n', iterNext ⟨s, n, m⟩ k =
        (⟨s, n', m⟩, (splitW ((s.take m).drop n)).take k) ∧
      n ≤ n' ∧ n' ≤ m ∧ InvF (s.take m) n' ∧
      splitW ((s.take m).take n') =
        splitW ((s.take m).take n) ++ (splitW ((s.take m).drop n)).take k := by
  induction k with
  | zero =>
    intro s n m _ hn _
    exact ⟨n, by rw [iterNext, List.take_zero], le_refl n, hn, by assumption, by
      rw [List.take_zero, List.append_nil]⟩
  | succ k ih =>
    intro s n m hm hn hinv
    cases hsp : splitW ((s.take m).drop n) with
    | nil =>
      have hnext := next_words_nil hsp
      obtain ⟨n', heq, hle, hn', hinv', hcons⟩ := ih s n m hm hn hinv
      refine ⟨n', ?_, hle, hn', hinv', ?_⟩
      · simp only [iterNext, hnext]
        rw [heq, hsp]
        simp
      · rw [hcons, hsp]
        simp
    | cons w rest =>
      obtain ⟨n₁, hnext, hn₁, hn₁m, hinv₁, hcons₁, hrem₁⟩ :=
        next_words_cons hm hn hinv hsp
      obtain ⟨n', heq, hle, hn', hinv', hcons⟩ := ih s n₁ m hm hn₁m hinv₁
      rw [hrem₁] at heq hcons
      refine ⟨n', ?_, le_trans hn₁ hle, hn', hinv', ?_⟩
      · simp only [iterNext, hnext]
        rw [heq, List.take_succ_cons]
      · rw [hcons, hcons₁, List.take_succ_cons, List.append_assoc]
        rfl

/-- Invariant of `k` backward `next_back()` calls: the collected words are
the last `k` words of the remaining text from the end inward, and the
consumed-from-the-end text grows by exactly those words. -/
theorem iterNextBack_spec (k : Nat) : ∀ (s : Str) (m : Nat), m ≤ s.length →
    InvB s m →
    ∃ m', iterNextBack ⟨s, 0, m⟩ k =
        (⟨s, 0, m'⟩, (splitW (s.take m)).reverse.take k) ∧
      m' ≤ m ∧ InvB s m' ∧
      splitW (s.take m') =
        (splitW (s.take m)).take ((splitW (s.take m)).length - k) ∧
      splitW (s.drop m') =
        (splitW (s.take m)).drop ((splitW (s.take m)).length - k) ++
          splitW (s.drop m) := by
  induction k with
  | zero =>
    intro s m hm hinv
    refine ⟨m, by rw [iterNextBack, List.take_zero], le_refl m, hinv, ?_, ?_⟩
    · rw [Nat.sub_zero, List.take_length]
    · rw [Nat.sub_zero, List.drop_length, List.nil_append]
  | succ k ih =>
    intro s m hm hinv
    rcases List.eq_nil_or_concat (splitW (s.take m)) with hnil | ⟨ws, w, hcat⟩
    on_goal 2 => rw [List.concat_eq_append] at hcat
    · have hnext := nextBack_words_nil hnil
      obtain ⟨m', heq, hle, hinv', htk, hdr⟩ := ih s m hm hinv
      refine ⟨m', ?_, hle, hinv', ?_, ?_⟩
      · simp only [iterNextBack, hnext]
        rw [heq, hnil]
        simp
      · rw [htk, hnil]
        simp
      · rw [hdr, hnil]
        simp
    · obtain ⟨m₁, hnext, hm₁, hinv₁, htk₁, hdr₁⟩ :=
        nextBack_words_concat hm hinv hcat
      obtain ⟨m', heq, hle, hinv', htk, hdr⟩ := ih s m₁ (le_trans hm₁ hm) hinv₁
      rw [htk₁] at heq htk hdr
      have hrev : (splitW (s.take m)).reverse.take (k + 1) =
          w :: ws.reverse.take k := by
        rw [hcat, List.reverse_append]
        simp
      have hlensw : (splitW (s.take m)).length = ws.length + 1 := by
        rw [hcat, List.length_append]
        simp
      refine ⟨m', ?_, le_trans hle hm₁, hinv', ?_, ?_⟩
      · simp only [iterNextBack, hnext]
        rw [heq, hrev]
      · rw [htk, hcat]
        have harith : (ws ++ [w]).length - (k + 1) = ws.length - k := by
          simp only [List.length_append, List.length_cons, List.length_nil]
          omega
        rw [harith, List.take_append_of_le_length (by omega)]
      · rw [hdr, hdr₁, hcat]
        have harith : (ws ++ [w]).length - (k + 1) = ws.length - k := by
          simp only [List.length_append, List.length_cons, List.length_nil]
          omega
        rw [harith, List.drop_append_of_le_length (by omega), List.append_assoc]
        rfl

/-- **C6**: `CommandArguments` splitting is whitespace-fold-invariant and
reversible. After any number `k` of forward `next()` calls on a fresh
iterator over `s`, the collected words are exactly the first `k`
whitespace-separated words of `s`, and the re-derived consumed-prefix text
`consumed_begin().as_str()` is a trim-stable prefix of the trimmed input
whose word list is exactly the collected words; symmetrically, after any
number of `next_back()` calls the collected words are the last `k` words
from the end inward, and `consumed_end().as_str()` is a trim-stable suffix
of the trimmed input whose word list is exactly the collected words in
input order. -/
theorem c6_split_roundtrip (s : Str) (k : Nat) :
    ((iterNext (CommandArguments.ofStr s) k).2 = (splitW s).take k ∧
     splitW (iterNext (CommandArguments.ofStr s) k).1.consumedBegin.asStr =
       (iterNext (CommandArguments.ofStr s) k).2 ∧
     (iterNext (CommandArguments.ofStr s) k).1.consumedBegin.asStr <+: trim s ∧
     trim (iterNext (CommandArguments.ofStr s) k).1.consumedBegin.asStr =
       (iterNext (CommandArguments.ofStr s) k).1.consumedBegin.asStr) ∧
    ((iterNextBack (CommandArguments.ofStr s) k).2 = (splitW s).reverse.take k ∧
     splitW (iterNextBack (CommandArguments.ofStr s) k).1.consumedEnd.asStr =
       (iterNextBack (CommandArguments.ofStr s) k).2.reverse ∧
     (iterNextBack (CommandArguments.ofStr s) k).1.consumedEnd.asStr <:+ trim s ∧
     trim (iterNextBack (CommandArguments.ofStr s) k).1.consumedEnd.asStr =
       (iterNextBack (CommandArguments.ofStr s) k).1.consumedEnd.asStr) := by
  have hofs : CommandArguments.ofStr s = ⟨s, 0, s.length⟩ := rfl
  constructor
  · obtain ⟨n', heq, _, _, hinv', hcons⟩ :=
      iterNext_spec k s 0 s.length (le_refl _) (Nat.zero_le _) (Or.inl rfl)
    rw [List.take_length, List.drop_zero] at heq
    rw [List.take_length, List.drop_zero, List.take_zero, splitW_nil,
      List.nil_append] at hcons
    rw [List.take_length] at hinv'
    rw [← hofs] at heq
    have h1 : ((⟨s, n', s.length⟩ : CommandArguments).consumedBegin).asStr =
        trim (s.take n') := asStr_ofStr (s.take n')
    refine ⟨by rw [heq], ?_, ?_, ?_⟩
    · rw [heq]
      show splitW ((⟨s, n', s.length⟩ : CommandArguments).consumedBegin).asStr =
        (splitW s).take k
      rw [h1, splitW_trim, hcons]
    · rw [heq]
      show ((⟨s, n', s.length⟩ : CommandArguments).consumedBegin).asStr <+: trim s
      rw [h1]
      exact trim_take_prefix_of_invF hinv'
    · rw [heq]
      show trim ((⟨s, n', s.length⟩ : CommandArguments).consumedBegin).asStr =
        ((⟨s, n', s.length⟩ : CommandArguments).consumedBegin).asStr
      rw [h1, trim_idem]
  · obtain ⟨m', heq, _, hinv', _, hdr⟩ :=
      iterNextBack_spec k s s.length (le_refl _) (Or.inl rfl)
    rw [List.take_length] at heq hdr
    rw [List.drop_length, splitW_nil, List.append_nil] at hdr
    rw [← hofs] at heq
    have h2 : ((⟨s, 0, m'⟩ : CommandArguments).consumedEnd).asStr =
        trim (s.drop m') := asStr_ofStr (s.drop m')
    have hrevtake : ((splitW s).reverse.take k).reverse =
        (splitW s).drop ((splitW s).length - k) := by
      rw [List.reverse_take, List.reverse_reverse, List.length_reverse]
    refine ⟨by rw [heq], ?_, ?_, ?_⟩
    · rw [heq]
      show splitW ((⟨s, 0, m'⟩ : CommandArguments).consumedEnd).asStr =
        ((splitW s).reverse.take k).reverse
      rw [h2, splitW_trim, hdr, hrevtake]
    · rw [heq]
      show ((⟨s, 0, m'⟩ : CommandArguments).consumedEnd).asStr <:+ trim s
      rw [h2]
      exact trim_drop_suffix_of_invB hinv'
    · rw [heq]
      show trim ((⟨s, 0, m'⟩ : CommandArguments).consumedEnd).asStr =
        ((⟨s, 0, m'⟩ : CommandArguments).consumedEnd).asStr
      rw [h2, trim_idem]

/-! ## Shared-syntax accumulation (`FindSharedSyntax`) -/

/-- Length of the longest common prefix of two word lists. -/
def lcpLen : List Str → List Str → Nat
  | x :: xs, y :: ys => if x = y then lcpLen xs ys + 1 else 0
  | _, _ => 0

theorem lcpLen_nil_left (ys : List Str) : lcpLen [] ys = 0 := by
  cases ys <;> rfl

theorem lcpLen_nil_right (xs : List Str) : lcpLen xs [] = 0 := by
  cases xs <;> rfl

theorem lcpLen_cons (x y : Str) (xs ys : List Str) :
    lcpLen (x :: xs) (y :: ys) = if x = y then lcpLen xs ys + 1 else 0 := rfl

/-- Unfolding of `appendGo` when the stored-prefix iterator is exhausted. -/
theorem appendGo_eq_none {pr x : CommandArguments} (h : pr.next = (x, none))
    (choice : List Str) (orig cm : CommandArguments) :
    FindSharedSyntax.appendGo choice orig pr cm =
      (orig, choice ++ (cm.next).2.toList) := by
  unfold FindSharedSyntax.appendGo
  split
  · rfl
  · rename_i p' w heq
    rw [h] at heq
    cases heq

/-- Unfolding of `appendGo` when both iterators yield the same word. -/
theorem appendGo_eq_step {pr p' cm : CommandArguments} {w : Str}
    (h : pr.next = (p', some w)) (he : (cm.next).2 = some w)
    (choice : List Str) (orig : CommandArguments) :
    FindSharedSyntax.appendGo choice orig pr cm =
      FindSharedSyntax.appendGo choice orig p' (cm.next).1 := by
  conv_lhs => unfold FindSharedSyntax.appendGo
  split
  · rename_i x heq
    rw [h] at heq
    cases heq
  · rename_i p'' w' heq
    rw [h] at heq
    cases heq
    rw [if_pos he]

/-- Unfolding of `appendGo` at a divergence. -/
theorem appendGo_eq_div {pr p' cm : CommandArguments} {w : Str}
    (h : pr.next = (p', some w)) (he : ¬ (cm.next).2 = some w)
    (choice : List Str) (orig : CommandArguments) :
    FindSharedSyntax.appendGo choice orig pr cm =
      ((p'.consumedBegin.nextBack).1, w :: (cm.next).2.toList) := by
  conv_lhs => unfold FindSharedSyntax.appendGo
  split
  · rename_i x heq
    rw [h] at heq
    cases heq
  · rename_i p'' w' heq
    rw [h] at heq
    cases heq
    rw [if_neg he]

/-- After consuming words `D ++ [w]`, rebuilding the iterator from the
consumed text and dropping one word from its back leaves exactly the words
`D`. -/
theorem consumedBegin_nextBack_words {s : Str} {n₁ m : Nat} {D : List Str}
    {w : Str} (hn₁m : n₁ ≤ m)
    (hcons : splitW ((s.take m).take n₁) = D ++ [w]) :
    ∃ m'', ((⟨s, n₁, m⟩ : CommandArguments).consumedBegin.nextBack).1 =
        ⟨s.take n₁, 0, m''⟩ ∧ m'' ≤ (s.take n₁).length ∧
      splitW ((s.take n₁).take m'') = D := by
  have htt : (s.take m).take n₁ = s.take n₁ := by
    rw [List.take_take, min_eq_left hn₁m]
  rw [htt] at hcons
  have hcat : splitW ((s.take n₁).take (s.take n₁).length) = D ++ [w] := by
    rw [List.take_length]
    exact hcons
  obtain ⟨m'', hnb, hle, _, htk, _⟩ :=
    nextBack_words_concat (le_refl (s.take n₁).length) (Or.inl rfl) hcat
  refine ⟨m'', ?_, hle, htk⟩
  show ((⟨s.take n₁, 0, (s.take n₁).length⟩ : CommandArguments).nextBack).1 = _
  rw [hnb]

/-- The exhausted-prefix case of the `append` loop: the stored iterator is
kept and at most one diverging word of the new template is pushed. -/
theorem appendGo_spec_nil {s : Str} {n m : Nat} {t : Str} {q : Nat}
    {C : List Str} (choice : List Str) (orig : CommandArguments)
    (hq : q ≤ t.length) (hinvC : InvF t q)
    (hPnil : splitW ((s.take m).drop n) = [])
    (hC : splitW (t.drop q) = C) :
    FindSharedSyntax.appendGo choice orig ⟨s, n, m⟩ ⟨t, q, t.length⟩ =
      (orig, choice ++ C.take 1) := by
  have hnext := next_words_nil hPnil
  rw [appendGo_eq_none hnext]
  cases hC' : C with
  | nil =>
    have hCnil : splitW ((t.take t.length).drop q) = [] := by
      rw [List.take_length, hC, hC']
    have hnextC := next_words_nil hCnil
    rw [hnextC]
    rfl
  | cons w' rest' =>
    have hCc : splitW ((t.take t.length).drop q) = w' :: rest' := by
      rw [List.take_length, hC, hC']
    obtain ⟨q₁, hnextC, _, _, _, _, _⟩ :=
      next_words_cons (le_refl t.length) hq ((List.take_length t).symm ▸ hinvC) hCc
    rw [hnextC]
    rfl

/-- The `append` loop, characterised on word lists: with remaining stored
words `P` and remaining template words `C`, either `P` is a prefix of `C`
(the stored iterator is kept, at most one diverging template word is
pushed on the existing alternatives) or the loop diverges at position
`lcpLen P C` (the alternatives are reset to the one or two diverging
words, and the stored iterator is rebuilt over exactly the words matched
so far). -/
theorem appendGo_spec (N : Nat) : ∀ (s : Str) (n m : Nat) (t : Str) (q : Nat)
    (choice : List Str) (orig : CommandArguments) (P C : List Str),
    m ≤ s.length → n ≤ m → InvF (s.take m) n → q ≤ t.length → InvF t q →
    splitW ((s.take m).drop n) = P → splitW (t.drop q) = C →
    P.length ≤ N →
    ((lcpLen P C = P.length →
       FindSharedSyntax.appendGo choice orig ⟨s, n, m⟩ ⟨t, q, t.length⟩ =
         (orig, choice ++ (C.drop (lcpLen P C)).take 1)) ∧
     (lcpLen P C < P.length →
       (FindSharedSyntax.appendGo choice orig ⟨s, n, m⟩ ⟨t, q, t.length⟩).2 =
           (P.drop (lcpLen P C)).take 1 ++ (C.drop (lcpLen P C)).take 1 ∧
       ∃ s' m'',
         (FindSharedSyntax.appendGo choice orig ⟨s, n, m⟩ ⟨t, q, t.length⟩).1 =
             ⟨s', 0, m''⟩ ∧ m'' ≤ s'.length ∧
           splitW (s'.take m'') =
             splitW ((s.take m).take n) ++ P.take (lcpLen P C))) := by
  induction N with
  | zero =>
    intro s n m t q choice orig P C hm hn hinv hq hinvC hP hC hlength
    have hPnil : P = [] := List.length_eq_zero.mp (by omega)
    subst hPnil
    constructor
    · intro _
      rw [lcpLen_nil_left, List.drop_zero]
      exact appendGo_spec_nil choice orig hq hinvC hP hC
    · intro hlt
      rw [lcpLen_nil_left] at hlt
      cases hlt
  | succ N ih =>
    intro s n m t q choice orig P C hm hn hinv hq hinvC hP hC hlength
    cases hPc : P with
    | nil =>
      subst hPc
      constructor
      · intro _
        rw [lcpLen_nil_left, List.drop_zero]
        exact appendGo_spec_nil choice orig hq hinvC hP hC
      · intro hlt
        rw [lcpLen_nil_left] at hlt
        cases hlt
    | cons w rest =>
      subst hPc
      obtain ⟨n₁, hnext, hn₁, hn₁m, hinv₁, hcons₁, hrem₁⟩ :=
        next_words_cons hm hn hinv hP
      cases hCc : C with
      | nil =>
        subst hCc
        have hCnil : splitW ((t.take t.length).drop q) = [] := by
          rw [List.take_length, hC]
        have hnextC := next_words_nil hCnil
        have hdiv := appendGo_eq_div hnext
          (by rw [hnextC]; simp) choice orig
        rw [lcpLen_nil_right]
        constructor
        · intro hl
          rw [List.length_cons] at hl
          cases hl
        · intro _
          obtain ⟨m'', hnb, hle, htk⟩ := consumedBegin_nextBack_words hn₁m hcons₁
          refine ⟨?_, s.take n₁, m'', ?_, hle, ?_⟩
          · rw [hdiv, hnextC]
            simp
          · rw [hdiv]
            exact hnb
          · rw [htk, List.take_zero, List.append_nil]
      | cons w' rest' =>
        subst hCc
        have hCc' : splitW ((t.take t.length).drop q) = w' :: rest' := by
          rw [List.take_length, hC]
        obtain ⟨q₁, hnextC, hq₁, hq₁m, hinvC₁, _, hremC₁⟩ :=
          next_words_cons (le_refl t.length) hq
            ((List.take_length t).symm ▸ hinvC) hCc'
        rw [List.take_length] at hremC₁ hinvC₁
        by_cases hww : w' = w
        · subst hww
          have hstep := appendGo_eq_step hnext (by rw [hnextC]) choice orig
          have hcm1 : (CommandArguments.next ⟨t, q, t.length⟩).1 =
              ⟨t, q₁, t.length⟩ := by rw [hnextC]
          rw [lcpLen_cons, if_pos rfl]
          obtain ⟨ihEx, ihDiv⟩ := ih s n₁ m t q₁ choice orig rest rest'
            hm hn₁m hinv₁ hq₁m hinvC₁ hrem₁ hremC₁ (by
              rw [List.length_cons] at hlength
              omega)
          constructor
          · intro hl
            rw [List.length_cons] at hl
            have hl' : lcpLen rest rest' = rest.length := by omega
            rw [hstep, hcm1, ihEx hl', List.drop_succ_cons]
          · intro hl
            rw [List.length_cons] at hl
            have hl' : lcpLen rest rest' < rest.length := by omega
            obtain ⟨hsnd, s', m'', hfst, hle, htk⟩ := ihDiv hl'
            refine ⟨?_, s', m'', ?_, hle, ?_⟩
            · rw [hstep, hcm1, hsnd, List.drop_succ_cons, List.drop_succ_cons]
            · rw [hstep, hcm1, hfst]
            · rw [htk, hcons₁, List.take_succ_cons, List.append_assoc]
              rfl
        · have hdiv := appendGo_eq_div hnext
            (by rw [hnextC]; simp; intro hcon; exact hww hcon) choice orig
          rw [lcpLen_cons, if_neg (fun hcon => hww hcon.symm)]
          constructor
          · intro hl
            rw [List.length_cons] at hl
            cases hl
          · intro _
            obtain ⟨m'', hnb, hle, htk⟩ := consumedBegin_nextBack_words hn₁m hcons₁
            refine ⟨?_, s.take n₁, m'', ?_, hle, ?_⟩
            · rw [hdiv, hnextC]
              simp
            · rw [hdiv]
              exact hnb
            · rw [htk, List.take_zero, List.append_nil]

/-- Well-formedness of a stored shared-prefix iterator: fresh start and a
range end within the text. -/
def prefWf (ca : CommandArguments) : Prop :=
  ca.start = 0 ∧ ca.stop ≤ ca.str.length

/-- `asStr` of a fresh-start iterator is the trimmed text up to `stop`. -/
theorem asStr_start_zero (s' : Str) (m'' : Nat) :
    (⟨s', 0, m''⟩ : CommandArguments).asStr = trim (s'.take m'') := rfl

/-- A full-length common prefix means the first list is a prefix of the
second. -/
theorem prefix_of_lcpLen_eq : ∀ {P C : List Str},
    lcpLen P C = P.length → P <+: C
  | [], C, _ => List.nil_prefix ..
  | x :: xs, [], h => by
    rw [lcpLen_nil_right, List.length_cons] at h
    cases h
  | x :: xs, y :: ys, h => by
    rw [lcpLen_cons] at h
    by_cases hxy : x = y
    · rw [if_pos hxy, List.length_cons] at h
      exact List.cons_prefix_cons.mpr
        ⟨hxy, prefix_of_lcpLen_eq (Nat.succ_injective h)⟩
    · rw [if_neg hxy, List.length_cons] at h
      cases h

/-- The first `lcpLen` words of the first list are a prefix of the second
list. -/
theorem lcpLen_take_prefix : ∀ (P C : List Str), P.take (lcpLen P C) <+: C
  | [], C => by
    rw [lcpLen_nil_left, List.take_zero]
    exact List.nil_prefix ..
  | x :: xs, [] => by
    rw [lcpLen_nil_right, List.take_zero]
  | x :: xs, y :: ys => by
    rw [lcpLen_cons]
    by_cases hxy : x = y
    · rw [if_pos hxy, List.take_succ_cons]
      exact List.cons_prefix_cons.mpr ⟨hxy, lcpLen_take_prefix xs ys⟩
    · rw [if_neg hxy, List.take_zero]
      exact List.nil_prefix ..

/-- The common prefix is never longer than the first list. -/
theorem lcpLen_le_length : ∀ (P C : List Str), lcpLen P C ≤ P.length
  | [], C => by
    rw [lcpLen_nil_left]
    exact Nat.zero_le _
  | x :: xs, [] => by
    rw [lcpLen_nil_right]
    exact Nat.zero_le _
  | x :: xs, y :: ys => by
    rw [lcpLen_cons]
    by_cases h : x = y
    · rw [if_pos h, List.length_cons]
      exact Nat.succ_le_succ (lcpLen_le_length xs ys)
    · rw [if_neg h]
      exact Nat.zero_le _

/-- One `append` call, characterised on the word lists of the stored
prefix text and of the new template: if the stored words are a prefix of
the template's words the stored iterator is kept and at most one diverging
template word joins the existing alternatives; otherwise the stored prefix
is truncated to the words before the divergence point and the alternatives
are reset to the one or two diverging words. -/
theorem append_characterisation (fss : FindSharedSyntax) (t : Str)
    (hwf : prefWf fss.pref) :
    prefWf (fss.append t).pref ∧
    (lcpLen (splitW fss.pref.asStr) (splitW t) =
        (splitW fss.pref.asStr).length →
      (fss.append t).pref = fss.pref ∧
      (fss.append t).choice = fss.choice ++
        ((splitW t).drop (lcpLen (splitW fss.pref.asStr) (splitW t))).take 1) ∧
    (lcpLen (splitW fss.pref.asStr) (splitW t) <
        (splitW fss.pref.asStr).length →
      splitW (fss.append t).pref.asStr =
        (splitW fss.pref.asStr).take
          (lcpLen (splitW fss.pref.asStr) (splitW t)) ∧
      (fss.append t).choice =
        ((splitW fss.pref.asStr).drop
          (lcpLen (splitW fss.pref.asStr) (splitW t))).take 1 ++
        ((splitW t).drop (lcpLen (splitW fss.pref.asStr) (splitW t))).take 1) := by
  obtain ⟨hst, hstop⟩ := hwf
  have hpref : fss.pref = ⟨fss.pref.str, 0, fss.pref.stop⟩ := by
    rw [← hst]
  have hP : splitW ((fss.pref.str.take fss.pref.stop).drop 0) =
      splitW fss.pref.asStr := by
    conv_rhs => rw [hpref, asStr_start_zero, splitW_trim]
    rfl
  have hC : splitW (t.drop 0) = splitW t := by rw [List.drop_zero]
  obtain ⟨specEx, specDiv⟩ := appendGo_spec (splitW fss.pref.asStr).length
    fss.pref.str 0 fss.pref.stop t 0 fss.choice fss.pref
    (splitW fss.pref.asStr) (splitW t) hstop (Nat.zero_le _) (Or.inl rfl)
    (Nat.zero_le _) (Or.inl rfl) hP hC (le_refl _)
  have hgo : FindSharedSyntax.appendGo fss.choice fss.pref fss.pref
      (CommandArguments.ofStr t) =
      FindSharedSyntax.appendGo fss.choice fss.pref
        ⟨fss.pref.str, 0, fss.pref.stop⟩ ⟨t, 0, t.length⟩ := by
    rw [← hpref]
    rfl
  by_cases hk : lcpLen (splitW fss.pref.asStr) (splitW t) =
      (splitW fss.pref.asStr).length
  · have heq := specEx hk
    have hpr : (fss.append t).pref = fss.pref := by
      show (FindSharedSyntax.appendGo fss.choice fss.pref fss.pref
        (CommandArguments.ofStr t)).1 = fss.pref
      rw [hgo, heq]
    have hch : (fss.append t).choice = fss.choice ++
        ((splitW t).drop (lcpLen (splitW fss.pref.asStr) (splitW t))).take 1 := by
      show (FindSharedSyntax.appendGo fss.choice fss.pref fss.pref
        (CommandArguments.ofStr t)).2 = _
      rw [hgo, heq]
    exact ⟨by rw [hpr]; exact ⟨hst, hstop⟩, fun _ => ⟨hpr, hch⟩,
      fun hlt => absurd hk (by omega)⟩
  · have hlt : lcpLen (splitW fss.pref.asStr) (splitW t) <
        (splitW fss.pref.asStr).length :=
      lt_of_le_of_ne (lcpLen_le_length ..) hk
    obtain ⟨hsnd, s', m'', hfst, hle, htk⟩ := specDiv hlt
    rw [List.take_zero, splitW_nil, List.nil_append] at htk
    have hpr1 : (fss.append t).pref = ⟨s', 0, m''⟩ := by
      show (FindSharedSyntax.appendGo fss.choice fss.pref fss.pref
        (CommandArguments.ofStr t)).1 = _
      rw [hgo]
      exact hfst
    have hch : (fss.append t).choice =
        ((splitW fss.pref.asStr).drop
          (lcpLen (splitW fss.pref.asStr) (splitW t))).take 1 ++
        ((splitW t).drop (lcpLen (splitW fss.pref.asStr) (splitW t))).take 1 := by
      show (FindSharedSyntax.appendGo fss.choice fss.pref fss.pref
        (CommandArguments.ofStr t)).2 = _
      rw [hgo]
      exact hsnd
    refine ⟨⟨by rw [hpr1], by rw [hpr1]; exact hle⟩,
      fun habs => absurd habs (by omega), fun _ => ⟨?_, hch⟩⟩
    rw [hpr1, asStr_start_zero, splitW_trim, htk]

/-- A shared-syntax accumulation: `new` on the first template, `append` on
each further one. -/
def sharedSyntaxOf (t : Str) (ts : List Str) : FindSharedSyntax :=
  ts.foldl FindSharedSyntax.append (FindSharedSyntax.new t)

/-- Folding `append` over templates keeps the stored iterator well-formed
and only ever shortens the stored prefix, which stays a word-list prefix of
the starting prefix and of every appended template. -/
theorem foldl_append_prefix : ∀ (ts : List Str) (fss : FindSharedSyntax),
    prefWf fss.pref →
    prefWf (ts.foldl FindSharedSyntax.append fss).pref ∧
    splitW (ts.foldl FindSharedSyntax.append fss).pref.asStr <+:
      splitW fss.pref.asStr ∧
    (∀ u ∈ ts, splitW (ts.foldl FindSharedSyntax.append fss).pref.asStr <+:
      splitW u)
  | [], fss, hwf => ⟨hwf, List.prefix_refl _, by simp⟩
  | t :: ts, fss, hwf => by
    obtain ⟨hwf', hex, hdiv⟩ := append_characterisation fss t hwf
    obtain ⟨hw2, hpre2, hall2⟩ := foldl_append_prefix ts (fss.append t) hwf'
    have hkey : splitW (fss.append t).pref.asStr <+: splitW fss.pref.asStr ∧
        splitW (fss.append t).pref.asStr <+: splitW t := by
      by_cases hk : lcpLen (splitW fss.pref.asStr) (splitW t) =
          (splitW fss.pref.asStr).length
      · obtain ⟨hpr, _⟩ := hex hk
        rw [hpr]
        exact ⟨List.prefix_refl _, prefix_of_lcpLen_eq hk⟩
      · have hlt := lt_of_le_of_ne (lcpLen_le_length ..) hk
        obtain ⟨hW, _⟩ := hdiv hlt
        rw [hW]
        exact ⟨List.take_prefix .., lcpLen_take_prefix ..⟩
    rw [List.foldl_cons]
    refine ⟨hw2, hpre2.trans hkey.1, ?_⟩
    intro u hu
    rcases List.mem_cons.mp hu with rfl | hu'
    · exact hpre2.trans hkey.2
    · exact hall2 u hu'

/-- **C7**: Shared-syntax accumulation is prefix-monotonic: after any
sequence of contributions (`new` then `append`s), the stored prefix's word
list is a prefix of every contributed template's word list; and one more
`append` either diverges — the stored prefix is truncated to the words
before the divergence point and the alternatives are reset to the one or
two diverging words (from the stored prefix and/or the new template,
whichever exist there) — or the stored words are a prefix of the new
template's words, in which case the stored iterator is kept and the at
most one left-over template word joins the accumulated alternatives. -/
theorem c7_shared_syntax_prefix_monotone (t : Str) (ts : List Str) :
    (∀ u ∈ t :: ts,
      splitW (sharedSyntaxOf t ts).pref.asStr <+: splitW u) ∧
    (∀ t' : Str,
      (lcpLen (splitW (sharedSyntaxOf t ts).pref.asStr) (splitW t') <
          (splitW (sharedSyntaxOf t ts).pref.asStr).length →
        splitW ((sharedSyntaxOf t ts).append t').pref.asStr =
          (splitW (sharedSyntaxOf t ts).pref.asStr).take
            (lcpLen (splitW (sharedSyntaxOf t ts).pref.asStr) (splitW t')) ∧
        ((sharedSyntaxOf t ts).append t').choice =
          ((splitW (sharedSyntaxOf t ts).pref.asStr).drop
            (lcpLen (splitW (sharedSyntaxOf t ts).pref.asStr)
              (splitW t'))).take 1 ++
          ((splitW t').drop
            (lcpLen (splitW (sharedSyntaxOf t ts).pref.asStr)
              (splitW t'))).take 1) ∧
      (lcpLen (splitW (sharedSyntaxOf t ts).pref.asStr) (splitW t') =
          (splitW (sharedSyntaxOf t ts).pref.asStr).length →
        ((sharedSyntaxOf t ts).append t').pref = (sharedSyntaxOf t ts).pref ∧
        ((sharedSyntaxOf t ts).append t').choice =
          (sharedSyntaxOf t ts).choice ++
          ((splitW t').drop
            (lcpLen (splitW (sharedSyntaxOf t ts).pref.asStr)
              (splitW t'))).take 1)) := by
  have hwf0 : prefWf (FindSharedSyntax.new t).pref := ⟨rfl, le_refl _⟩
  obtain ⟨hwfF, hpreF, hallF⟩ := foldl_append_prefix ts (FindSharedSyntax.new t) hwf0
  constructor
  · intro u hu
    rcases List.mem_cons.mp hu with rfl | hu'
    · have h2 : splitW (FindSharedSyntax.new u).pref.asStr = splitW u := by
        have hnp : (FindSharedSyntax.new u).pref = CommandArguments.ofStr u := rfl
        rw [hnp, asStr_ofStr, splitW_trim]
      rw [h2] at hpreF
      exact hpreF
    · exact hallF u hu'
  · intro t'
    obtain ⟨_, hex, hdiv⟩ := append_characterisation (sharedSyntaxOf t ts) t' hwfF
    exact ⟨hdiv, hex⟩

/-- Concrete instances of the shared-syntax theorem: prefix-monotonicity,
a diverging `append` and a prefix-extending `append` on small templates. -/
theorem c7_shared_syntax_prefix_monotone_witness :
    (splitW (sharedSyntaxOf (str (r"!a b")) []).pref.asStr <+:
      splitW (str (r"!a b"))) ∧
    (splitW ((sharedSyntaxOf (str (r"!a b")) []).append
        (str (r"!a c"))).pref.asStr =
        (splitW (sharedSyntaxOf (str (r"!a b")) []).pref.asStr).take
          (lcpLen (splitW (sharedSyntaxOf (str (r"!a b")) []).pref.asStr)
            (splitW (str (r"!a c")))) ∧
      ((sharedSyntaxOf (str (r"!a b")) []).append (str (r"!a c"))).choice =
        ((splitW (sharedSyntaxOf (str (r"!a b")) []).pref.asStr).drop
          (lcpLen (splitW (sharedSyntaxOf (str (r"!a b")) []).pref.asStr)
            (splitW (str (r"!a c"))))).take 1 ++
        ((splitW (str (r"!a c"))).drop
          (lcpLen (splitW (sharedSyntaxOf (str (r"!a b")) []).pref.asStr)
            (splitW (str (r"!a c"))))).take 1) ∧
    (((sharedSyntaxOf (str (r"!a b")) []).append (str (r"!a b c"))).pref =
        (sharedSyntaxOf (str (r"!a b")) []).pref ∧
      ((sharedSyntaxOf (str (r"!a b")) []).append (str (r"!a b c"))).choice =
        (sharedSyntaxOf (str (r"!a b")) []).choice ++
        ((splitW (str (r"!a b c"))).drop
          (lcpLen (splitW (sharedSyntaxOf (str (r"!a b")) []).pref.asStr)
            (splitW (str (r"!a b c"))))).take 1) :=
  ⟨(c7_shared_syntax_prefix_monotone (str (r"!a b")) []).1 (str (r"!a b"))
      (List.mem_cons_self ..),
   ((c7_shared_syntax_prefix_monotone (str (r"!a b")) []).2 (str (r"!a c"))).1
      (by decide),
   ((c7_shared_syntax_prefix_monotone (str (r"!a b")) []).2 (str (r"!a b c"))).2
      (by decide)⟩

end Chatbot
